import Mathlib

/-!
Verification development for the `parse-git-url` Rust crate.

The crate's own code (`src/lib.rs`, `src/scheme.rs`) is embedded directly:
`Scheme` with its codec, `normalize_url` / `normalize_ssh_url` /
`normalize_file_path`, `GitUrl::parse`, `GitUrl::trim_auth` and the
`Display` implementation.

The crate delegates generic URL parsing to the external `url` crate
(an implementation of the WHATWG URL standard), whose sources are not part
of this repository; a model of the fragment of that standard exercised here
is provided (`Url.parse`), documented at its definition.

Rust strings are modelled as Lean `String`s and string operations are
performed on their character lists; byte-level UTF-8 details are identified
with character-level ones (all inputs of interest are ASCII once the URL
parser has percent-encoded the path).  A Rust `panic!` (out-of-bounds
slicing or indexing) is modelled as an explicit `ParseOutcome.panicked`
result.
-/

deriving instance DecidableEq for Except

namespace ParseGitUrl

/-! ## Character-list utilities mirroring the Rust `str` operations used -/

/-- Boolean prefix test on character lists (Rust `str::starts_with`). -/
def chPre : List Char → List Char → Bool
  | [], _ => true
  | _ :: _, [] => false
  | a :: p, b :: s => a == b && chPre p s

/-- Boolean suffix test on character lists (Rust `str::ends_with`). -/
def chSuf (p s : List Char) : Bool := chPre p.reverse s.reverse

/-- Substring containment test (Rust `str::contains` with a string pattern). -/
def chSub (p : List Char) : List Char → Bool
  | [] => chPre p []
  | c :: t => chPre p (c :: t) || chSub p t

/-- Split on a separator character; always returns a non-empty list and keeps
empty pieces, exactly like Rust `str::split(char)`. -/
def chSplit (sep : Char) : List Char → List (List Char)
  | [] => [[]]
  | c :: t =>
    match chSplit sep t with
    | [] => [[]]
    | g :: gs => if c == sep then [] :: g :: gs else (c :: g) :: gs

/-- Index of the first occurrence of a character (Rust `str::find(char)`,
with char counting standing in for byte counting: only the relative order of
two such indices is ever used). -/
def chIndexOf : Char → List Char → Option Nat
  | _, [] => none
  | c, b :: t => if b == c then some 0 else (chIndexOf c t).map (· + 1)

/-- Split at the first occurrence of a separator: `some (before, after)`,
or `none` when the separator does not occur. -/
def chBreakFirst : Char → List Char → Option (List Char × List Char)
  | _, [] => none
  | sep, c :: t =>
    if c == sep then some ([], t)
    else
      match chBreakFirst sep t with
      | none => none
      | some (a, b) => some (c :: a, b)

/-- Split at the last occurrence of a separator. -/
def chBreakLast (sep : Char) (l : List Char) : Option (List Char × List Char) :=
  match chBreakFirst sep l.reverse with
  | none => none
  | some (a, b) => some (b.reverse, a.reverse)

/-- ASCII lower-casing of one character. -/
def lowChar (c : Char) : Char :=
  if 65 ≤ c.toNat && c.toNat ≤ 90 then Char.ofNat (c.toNat + 32) else c

/-- Decimal digit characters of a natural number, with a fuel argument that
makes the recursion structural (any fuel above the number suffices). -/
def natDigitsAux : Nat → Nat → List Char
  | 0, _ => []
  | fuel + 1, n =>
    if n < 10 then [Char.ofNat (48 + n)]
    else natDigitsAux fuel (n / 10) ++ [Char.ofNat (48 + n % 10)]

/-- Decimal digit characters of a natural number (Rust `format!` of a `u16`). -/
def natDigits (n : Nat) : List Char := natDigitsAux (n + 1) n

/-- Decimal rendering of a natural number as a string. -/
def natToStr (n : Nat) : String := String.mk (natDigits n)

/-- Numeric value of a list of decimal digit characters. -/
def digitsToNat (l : List Char) : Nat :=
  l.foldl (fun a c => 10 * a + (c.toNat - 48)) 0

/-- Remove all trailing `/` characters (Rust `str::trim_end_matches('/')`). -/
def trimSlashes (l : List Char) : List Char :=
  (l.reverse.dropWhile (· == '/')).reverse

/-- Remove all leading reversed `.git` (that is, `tig.`) occurrences from a
reversed character list. -/
def trimGitRev : List Char → List Char
  | 't' :: 'i' :: 'g' :: '.' :: rest => trimGitRev rest
  | l => l

/-- Remove all trailing `.git` occurrences
(Rust `str::trim_end_matches(".git")`). -/
def trimGitChars (l : List Char) : List Char := (trimGitRev l.reverse).reverse

/-! ## String-level wrappers -/

/-- Rust `str::starts_with(pat)`. -/
def strStarts (s pat : String) : Bool := chPre pat.data s.data

/-- Rust `str::ends_with(pat)`. -/
def strEnds (s pat : String) : Bool := chSuf pat.data s.data

/-- Rust `str::contains(pat)` for a string pattern. -/
def strContains (s pat : String) : Bool := chSub pat.data s.data

/-- Rust `str::split(':')` collected into a vector of strings. -/
def splitColon (s : String) : List String := (chSplit ':' s.data).map String.mk

/-- Rust slicing `&s[1..]`, defined only when the string is non-empty
(the empty case panics in Rust and is handled at the call site). -/
def strDrop1 (s : String) : String := String.mk s.data.tail

/-- Rust `str::trim_end_matches('/')`. -/
def strTrimSlashes (s : String) : String := String.mk (trimSlashes s.data)

/-- Rust `str::trim_end_matches(".git")`. -/
def trimEndGit (s : String) : String := String.mk (trimGitChars s.data)

/-- Rust `str::rsplit_terminator('/')` collected into a vector: split on `/`,
drop the trailing piece when it is empty, and reverse. -/
def rsplitTerm (s : String) : List String :=
  let parts := chSplit '/' s.data
  let parts2 := match parts.getLast? with
    | some [] => parts.dropLast
    | _ => parts
  (parts2.map String.mk).reverse

/-- The final `/`-separated component of a string (used to state the
`fullname` invariant; the split keeps empty pieces, so a trailing `/`
yields an empty final component). -/
def lastComp (s : String) : String := String.mk ((chSplit '/' s.data).getLastD [])

/-! ## Scheme (src/scheme.rs) -/

/-- The nine supported URI schemes (`enum Scheme` in src/scheme.rs). -/
inductive Scheme where
  | file
  | ftp
  | ftps
  | git
  | gitSsh
  | http
  | https
  | ssh
  | unspecified
deriving DecidableEq, Repr

/-- Canonical token of each scheme (`impl Display for Scheme`). -/
def Scheme.str : Scheme → String
  | .file => "file"
  | .ftp => "ftp"
  | .ftps => "ftps"
  | .git => "git"
  | .gitSsh => "git+ssh"
  | .http => "http"
  | .https => "https"
  | .ssh => "ssh"
  | .unspecified => "unspecified"

/-- Error kind of the scheme decoder
(`scheme.rs` `FromStrErrorKind::UnsupportedScheme(String)`). -/
inductive SchemeError where
  | unsupportedScheme (s : String)
deriving DecidableEq, Repr

/-- Scheme decoder (`impl FromStr for Scheme` in src/scheme.rs): the nine
canonical lowercase tokens decode, everything else fails. -/
def Scheme.fromStr (s : String) : Except SchemeError Scheme :=
  if s = "file" then .ok .file
  else if s = "ftp" then .ok .ftp
  else if s = "ftps" then .ok .ftps
  else if s = "git" then .ok .git
  else if s = "git+ssh" then .ok .gitSsh
  else if s = "http" then .ok .http
  else if s = "https" then .ok .https
  else if s = "ssh" then .ok .ssh
  else if s = "unspecified" then .ok .unspecified
  else .error (.unsupportedScheme s)

/-- The nine canonical scheme tokens, in the order of the decoder. -/
def schemeTokens : List String :=
  ["file", "ftp", "ftps", "git", "git+ssh", "http", "https", "ssh", "unspecified"]

/-! ## Generic URL parser model

Modelled from the spec: section 4.2 of the spec delegates step 4 to "a
generic URL parse" performed by the external `url` crate (an implementation
of the WHATWG URL standard), whose source is not part of this repository.
The model below implements the fragment of that standard the crate exposes
to this code — scheme token recognition, authority parsing (userinfo, host,
port with default-port elision), special-scheme handling (`http`, `https`,
`ws`, `wss`, `ftp`, `file` get forgiving slashes and a non-empty path),
opaque (cannot-be-a-base) paths with no host, input preprocessing (strip
tab/newline everywhere, trim C0-and-space at both ends), and
percent-encoding of the path's C0/space/quote/angle/backquote/brace
characters.  Deliberate simplifications, none observable through the
fields `GitUrl::parse` reads (`scheme`, `username`, `password`, `host_str`,
`port`, `path`): no IDNA/punycode, no percent-decoding of hosts (`%` is
instead rejected in special-scheme hosts), no dot-segment removal, no
IPv4/IPv6 literal parsing, no percent-encoding of userinfo, non-ASCII
characters pass through unencoded, and queries and fragments are dropped
(this code never reads them). -/

/-- Error cases of the generic URL parser that this crate's code can
observe (`url::ParseError`): `RelativeUrlWithoutBase` is matched by name in
`normalize_url`, every other case is only wrapped. -/
inductive UrlParseError where
  | relativeUrlWithoutBase
  | emptyHost
  | invalidPort
  | invalidDomainCharacter
deriving DecidableEq, Repr

/-- Canonical URL record: the fields of `url::Url` read by this crate
(`scheme()`, `username()`, `password()`, `host_str()`, `port()`,
`path()`). -/
structure Url where
  scheme : String
  username : String
  password : Option String
  host : Option String
  port : Option Nat
  path : String
deriving DecidableEq, Repr

/-- The WHATWG special schemes. -/
def specialSchemes : List String := ["http", "https", "ws", "wss", "ftp", "file"]

/-- Default port of each special scheme, elided by the parser. -/
def defaultPort (scheme : String) : Option Nat :=
  if scheme = "http" then some 80
  else if scheme = "ws" then some 80
  else if scheme = "https" then some 443
  else if scheme = "wss" then some 443
  else if scheme = "ftp" then some 21
  else none

/-- Characters admissible in a scheme token after its leading letter. -/
def schemeCharOk (c : Char) : Bool :=
  c.isAlpha || c.isDigit || c == '+' || c == '-' || c == '.'

/-- Recognize a leading scheme token: a letter followed by
letters/digits/`+`/`-`/`.` and then a `:`.  Returns the lower-cased token
and the text after the colon. -/
def splitSchemeTok (l : List Char) : Option (List Char × List Char) :=
  match l with
  | [] => none
  | c :: _ =>
    if c.isAlpha then
      match l.dropWhile schemeCharOk with
      | ':' :: r => some ((l.takeWhile schemeCharOk).map lowChar, r)
      | _ => none
    else none

/-- WHATWG input preprocessing: trim C0-control-or-space from both ends,
then remove every tab, line feed and carriage return. -/
def preprocess (l : List Char) : List Char :=
  (((l.dropWhile (fun c => c.toNat ≤ 32)).reverse.dropWhile
      (fun c => c.toNat ≤ 32)).reverse).filter
    (fun c => !(c == '\t' || c == '\n' || c == '\r'))

/-- Percent-encoding of one byte value as `%XY` with uppercase hex. -/
def pctEnc (n : Nat) : List Char :=
  let hexDigit := fun (d : Nat) =>
    if d < 10 then Char.ofNat (48 + d) else Char.ofNat (55 + d)
  ['%', hexDigit (n / 16 % 16), hexDigit (n % 16)]

/-- Path-character encoding of the WHATWG path percent-encode set
(C0 controls, space, `"` (34), `<` (60), `>` (62), `` ` `` (96), braces
(123/125), DEL (127)); for special schemes a backslash (92) acts as a path
separator. -/
def encodePathChar (special : Bool) (c : Char) : List Char :=
  if special && c.toNat == 92 then ['/']
  else if c.toNat ≤ 32 || c.toNat == 127 || c.toNat == 34 || c.toNat == 60 ||
      c.toNat == 62 || c.toNat == 96 || c.toNat == 123 || c.toNat == 125 then
    pctEnc c.toNat
  else [c]

/-- Cut a path at the first query or fragment delimiter and percent-encode
what remains. -/
def encodePath (special : Bool) (l : List Char) : List Char :=
  (l.takeWhile (fun c => !(c == '?' || c == '#'))).flatMap (encodePathChar special)

/-- Characters the WHATWG host parser rejects, by code point: C0 and space,
`#` (35), `/` (47), `<` (60), `>` (62), `?` (63), `@` (64), `[` (91),
`\` (92), `]` (93), `^` (94), `|` (124), DEL (127), and for special-scheme
hosts also `%` (37).  Tab/newline are already stripped; `:` cannot occur
structurally. -/
def hostCharBad (special : Bool) (c : Char) : Bool :=
  c.toNat ≤ 32 || c.toNat == 35 || c.toNat == 47 || c.toNat == 60 ||
    c.toNat == 62 || c.toNat == 63 || c.toNat == 64 || c.toNat == 91 ||
    c.toNat == 92 || c.toNat == 93 || c.toNat == 94 || c.toNat == 124 ||
    c.toNat == 127 || (special && c.toNat == 37)

/-- Parse a port component: absent or empty means no port; digits are read
as a number, rejected above 65535, and a default port of a special scheme
is elided; any non-digit fails. -/
def parsePort (scheme : String) (special : Bool) (portRaw : Option (List Char)) :
    Except UrlParseError (Option Nat) :=
  match portRaw with
  | none => .ok none
  | some [] => .ok none
  | some ds =>
    if ds.all Char.isDigit then
      let v := digitsToNat ds
      if 65535 < v then .error .invalidPort
      else if special && defaultPort scheme == some v then .ok none
      else .ok (some v)
    else .error .invalidPort

/-- Userinfo of an authority: the text before the last `@`, when present. -/
def authUserinfo (auth : List Char) : Option (List Char) :=
  match chBreakLast '@' auth with
  | some (ui, _) => some ui
  | none => none

/-- Host-and-port of an authority: the text after the last `@`. -/
def authHostport (auth : List Char) : List Char :=
  match chBreakLast '@' auth with
  | some (_, hp) => hp
  | none => auth

/-- Raw host of an authority: host-and-port up to the first `:`. -/
def authHostRaw (auth : List Char) : List Char :=
  match chBreakFirst ':' (authHostport auth) with
  | some (h, _) => h
  | none => authHostport auth

/-- Raw port of an authority: host-and-port after the first `:`, when
present. -/
def authPortRaw (auth : List Char) : Option (List Char) :=
  match chBreakFirst ':' (authHostport auth) with
  | some (_, p) => some p
  | none => none

/-- Username of an authority: userinfo up to its first `:`. -/
def authUsername (auth : List Char) : List Char :=
  match authUserinfo auth with
  | some ui =>
    match chBreakFirst ':' ui with
    | some (u, _) => u
    | none => ui
  | none => []

/-- Password of an authority: userinfo after its first `:`, collapsed to
absent when empty. -/
def authPassword (auth : List Char) : Option (List Char) :=
  match authUserinfo auth with
  | some ui =>
    match chBreakFirst ':' ui with
    | some (_, p) => if p = [] then none else some p
    | none => none
  | none => none

/-- The validated host string: lower-cased for special schemes. -/
def authHostStr (special : Bool) (auth : List Char) : String :=
  String.mk (if special then (authHostRaw auth).map lowChar else authHostRaw auth)

/-- Parse an authority component (the text between `//` and the start of the
path): split userinfo at the last `@`, host and port at the first `:` of the
remainder, validate both.  `isFile` admits an empty host (and turns
`localhost` into no host); other special schemes require one. -/
def parseAuthority (scheme : String) (special isFile : Bool) (auth : List Char) :
    Except UrlParseError (String × Option String × Option String × Option Nat) :=
  match parsePort scheme special (authPortRaw auth) with
  | .error e => .error e
  | .ok port =>
    if (authHostRaw auth).any (hostCharBad special) then .error .invalidDomainCharacter
    else if authHostRaw auth = [] then
      if isFile then
        .ok (String.mk (authUsername auth), (authPassword auth).map String.mk, none, port)
      else if special then .error .emptyHost
      else if (authUserinfo auth).isSome || port.isSome then .error .emptyHost
      else .ok (String.mk (authUsername auth), (authPassword auth).map String.mk, none, port)
    else if isFile && authHostStr special auth = "localhost" then
      .ok (String.mk (authUsername auth), (authPassword auth).map String.mk, none, port)
    else
      .ok (String.mk (authUsername auth), (authPassword auth).map String.mk,
        some (authHostStr special auth), port)

/-- Authority delimiters: `/`, `?`, `#`, and for special schemes also the
backslash. -/
def authDelim (special : Bool) (c : Char) : Bool :=
  c == '/' || c == '?' || c == '#' || (special && c.toNat == 92)

/-- The authority component: the text up to the first delimiter. -/
def authTake (special : Bool) (l : List Char) : List Char :=
  l.takeWhile (fun c => !authDelim special c)

/-- The text from the first delimiter on (the start of the path). -/
def authDrop (special : Bool) (l : List Char) : List Char :=
  l.dropWhile (fun c => !authDelim special c)

/-- Special-scheme path defaulting: an absent path serializes as `/`. -/
def orRootPath (p : List Char) : List Char := if p = [] then ['/'] else p

/-- Prepend a `/` unless one is already present (`file:` without
slashes). -/
def ensureSlash (p : List Char) : List Char :=
  if chPre ['/'] p then p else '/' :: p

/-- Forgiving slash skipping of special schemes: any run of slashes or
backslashes after the colon is treated as the `//`. -/
def skipSlashes (l : List Char) : List Char :=
  l.dropWhile (fun c => c == '/' || c.toNat == 92)

/-- Generic URL parse (`url::Url::parse`), on the model described above. -/
def Url.parse (s : String) : Except UrlParseError Url :=
  match splitSchemeTok (preprocess s.data) with
  | none => .error .relativeUrlWithoutBase
  | some (schemeL, rest) =>
    let scheme := String.mk schemeL
    if scheme = "file" then
      if chPre ['/', '/'] rest then
        match parseAuthority scheme true true (authTake true (rest.drop 2)) with
        | .error e => .error e
        | .ok (user, pass, host, port) =>
          .ok ⟨scheme, user, pass, host, port,
            String.mk (orRootPath (encodePath true (authDrop true (rest.drop 2))))⟩
      else
        .ok ⟨scheme, "", none, none, none,
          String.mk (ensureSlash (encodePath true rest))⟩
    else if specialSchemes.contains scheme then
      match parseAuthority scheme true false (authTake true (skipSlashes rest)) with
      | .error e => .error e
      | .ok (user, pass, host, port) =>
        .ok ⟨scheme, user, pass, host, port,
          String.mk (orRootPath (encodePath true (authDrop true (skipSlashes rest))))⟩
    else if chPre ['/', '/'] rest then
      match parseAuthority scheme false false (authTake false (rest.drop 2)) with
      | .error e => .error e
      | .ok (user, pass, host, port) =>
        .ok ⟨scheme, user, pass, host, port,
          String.mk (encodePath false (authDrop false (rest.drop 2)))⟩
    else if chPre ['/'] rest then
      .ok ⟨scheme, "", none, none, none, String.mk (encodePath false rest)⟩
    else
      .ok ⟨scheme, "", none, none, none, String.mk (encodePath false rest)⟩

/-! ## Normalization (src/lib.rs, `normalize_url` and friends)

`normalize_url` and `normalize_ssh_url` / `normalize_file_path` are mutually
recursive in the source; the recursion depth is at most 2 because every
rewritten string starts with `ssh://` or `file://`, whose scheme token is
recognized on the next round without falling through to another rewrite
(proved below in `normalizeUrlF_fuel_saturates`).  The embedding makes the
recursion structural with an explicit fuel parameter; the public definitions
fix the fuel at 2 and the dedicated `fuelExhausted` error is unreachable
there (`normalizeUrl_ne_fuelExhausted`). -/

/-- Error kinds of normalization (`NormalizeUrlErrorKind` in src/lib.rs).
`fuelExhausted` is an artifact of the fuel encoding of the bounded
recursion and is unreachable from the public entry points. -/
inductive NormalizeUrlErrorKind where
  | nullBytes
  | urlParse (e : UrlParseError)
  | unsupportedSshPattern (url : String)
  | unsupportedScheme
  | fuelExhausted
deriving DecidableEq, Repr

/-- Rust `str::find('@') < str::find(':')` heuristic
(`string_contains_asperand_before_colon` in src/lib.rs). -/
def asperandBeforeColon (s : String) : Bool :=
  match chIndexOf '@' s.data, chIndexOf ':' s.data with
  | some a, some b => decide (a < b)
  | _, _ => false

/-- Rust `url.replace("git:", "git://")`: replace every occurrence,
scanning left to right. -/
def gitColonReplace : List Char → List Char
  | 'g' :: 'i' :: 't' :: ':' :: t => 'g' :: 'i' :: 't' :: ':' :: '/' :: '/' :: gitColonReplace t
  | c :: t => c :: gitColonReplace t
  | [] => []

/-- Rust `url.contains('\0')` (the null-byte guard of `normalize_url`). -/
def hasNullByte (s : String) : Bool := s.data.contains '\x00'

/-- Path-character encoding of `Url::from_file_path` (the path-segment
percent-encode set): like the URL path set but additionally encoding the
characters `?`, `#` and `\`, which would otherwise change the URL's
structure. -/
def encodeFilePathChar (c : Char) : List Char :=
  if c.toNat ≤ 32 || c.toNat == 127 || c.toNat == 34 || c.toNat == 60 ||
      c.toNat == 62 || c.toNat == 96 || c.toNat == 123 || c.toNat == 125 ||
      c.toNat == 63 || c.toNat == 35 || c.toNat == 92 then pctEnc c.toNat
  else [c]

/-- Result of `Url::from_file_path` (unix build): it succeeds exactly on
absolute paths, producing a host-less `file` URL whose path is the input
percent-encoded. -/
def urlFromFilePath (filepath : String) : Option Url :=
  if chPre ['/'] filepath.data then
    some ⟨"file", "", none, none, none,
      String.mk (filepath.data.flatMap encodeFilePathChar)⟩
  else none

/-- Characters that survive the URL path processing unchanged: above the
C0/space range, not DEL, not a query or fragment delimiter, outside the
path percent-encode set, and (for special schemes) not a backslash.  Every
character of a canonical path is of this kind, and a path made of such
characters re-parses verbatim. -/
def safePathChar (special : Bool) (c : Char) : Bool :=
  32 < c.toNat && !(c.toNat == 127) && !(c.toNat == 63) && !(c.toNat == 35) &&
    !(c.toNat == 34) && !(c.toNat == 60) && !(c.toNat == 62) && !(c.toNat == 96) &&
    !(c.toNat == 123) && !(c.toNat == 125) && (!special || !(c.toNat == 92))

/-- Characters admissible in a parsed host: not rejected by the host
validation and not one of the structural delimiters consumed around it. -/
def hostWfChar (special : Bool) (c : Char) : Bool :=
  !hostCharBad special c && !(c.toNat == 58)

/-- Well-formedness of a parsed host: non-empty and made of admissible
characters. -/
def hostWf (special : Bool) (h : String) : Prop :=
  h.data ≠ [] ∧ ∀ c ∈ h.data, hostWfChar special c = true

/-- Well-formedness facts true of every URL produced by the generic parser
model, used to re-parse the serializer's output. -/
structure UrlWF (u : Url) : Prop where
  host_wf : ∀ h, u.host = some h → hostWf (specialSchemes.contains u.scheme) h
  host_low : specialSchemes.contains u.scheme = true →
    ∀ h, u.host = some h → h.data.map lowChar = h.data
  port_le : ∀ p, u.port = some p → p ≤ 65535
  port_nd : ∀ p, u.port = some p → defaultPort u.scheme ≠ some p
  path_safe : ∀ c ∈ u.path.data, safePathChar (specialSchemes.contains u.scheme) c = true
  path_slash : ∀ h, u.host = some h → u.path = "" ∨ chPre ['/'] u.path.data = true

/-- A string that would itself parse as a scheme token: non-empty, leading
letter, and scheme-admissible characters throughout. -/
def schemeLike (h : String) : Bool :=
  match h.data with
  | [] => false
  | c :: _ => c.isAlpha && h.data.all schemeCharOk

/-- ASCII lower-casing of a string. -/
def lowStr (s : String) : String := String.mk (s.data.map lowChar)

/-- Fueled embedding of `normalize_url` (src/lib.rs lines 443–495): null-byte
guard, trailing-slash trim, `git:`-shorthand rewrite, generic URL parse, and
the SSH-shorthand / file-path fallbacks.  The bodies of `normalize_ssh_url`
(split on `:` and recurse on the `ssh://` rewrite) and of
`normalize_file_path` (`Url::from_file_path`, else recurse with a `file://`
prefix) are inlined at their call sites so that the recursion is structural
on the fuel; the standalone `normalizeSshUrlF` below restates the inlined
body verbatim. -/
def normalizeUrlF : Nat → String → Except NormalizeUrlErrorKind Url
  | 0, _ => .error .fuelExhausted
  | fuel + 1, url =>
    if hasNullByte url then .error .nullBytes
    else
      let url1 := strTrimSlashes url
      let gitNoSlash := strStarts url1 "git:" && !chPre ['/'] (url1.data.drop 4)
      let urlToParse := if gitNoSlash then String.mk (gitColonReplace url1.data) else url1
      match Url.parse urlToParse with
      | .ok u =>
        match Scheme.fromStr u.scheme with
        | .ok _ => .ok u
        | .error _ =>
          match splitColon url1 with
          | [a, b] => normalizeUrlF fuel ("ssh://" ++ a ++ "/" ++ b)
          | [a, b, c] => normalizeUrlF fuel ("ssh://" ++ a ++ ":" ++ b ++ "/" ++ c)
          | _ => .error (.unsupportedSshPattern url1)
      | .error .relativeUrlWithoutBase =>
        if asperandBeforeColon url1 then
          match splitColon url1 with
          | [a, b] => normalizeUrlF fuel ("ssh://" ++ a ++ "/" ++ b)
          | [a, b, c] => normalizeUrlF fuel ("ssh://" ++ a ++ ":" ++ b ++ "/" ++ c)
          | _ => .error (.unsupportedSshPattern url1)
        else
          match urlFromFilePath url1 with
          | some u => .ok u
          | none => normalizeUrlF fuel ("file://" ++ url1)
      | .error e => .error (.urlParse e)

/-- Fueled embedding of `normalize_ssh_url` (src/lib.rs lines 360–378):
split on `:` into exactly 2 or 3 parts and recursively normalize the
`ssh://`-prefixed rewrite; any other split count is unsupported. -/
def normalizeSshUrlF (fuel : Nat) (url : String) : Except NormalizeUrlErrorKind Url :=
  match splitColon url with
  | [a, b] => normalizeUrlF fuel ("ssh://" ++ a ++ "/" ++ b)
  | [a, b, c] => normalizeUrlF fuel ("ssh://" ++ a ++ ":" ++ b ++ "/" ++ c)
  | _ => .error (.unsupportedSshPattern url)

/-- Public `normalize_url`: fuel 2 suffices (see
`normalizeUrlF_fuel_saturates`). -/
def normalizeUrl (url : String) : Except NormalizeUrlErrorKind Url :=
  normalizeUrlF 2 url

/-- Public `normalize_ssh_url`, calling `normalize_url` at full fuel exactly
as the source function calls it. -/
def normalizeSshUrl (url : String) : Except NormalizeUrlErrorKind Url :=
  normalizeSshUrlF 2 url

/-! ## GitUrl (src/lib.rs) -/

/-- The parsed aggregate (`struct GitUrl`).  The source field
`scheme_prefix` is named `scheme_pfx` here. -/
structure GitUrl where
  host : Option String
  name : String
  owner : Option String
  organization : Option String
  fullname : String
  scheme : Scheme
  user : Option String
  token : Option String
  port : Option Nat
  path : String
  git_suffix : Bool
  scheme_pfx : Bool
deriving DecidableEq, Repr

/-- Top-level error kinds (`FromStrErrorKind` in src/lib.rs). -/
inductive FromStrErrorKind where
  | normalizeUrl (e : NormalizeUrlErrorKind)
  | urlHost
  | unsupportedScheme
  | malformedGitUrl
deriving DecidableEq, Repr

/-- Outcome of `GitUrl::parse`: a value, an error, or a Rust panic
(out-of-bounds slice or index). -/
inductive ParseOutcome where
  | ok (g : GitUrl)
  | err (e : FromStrErrorKind)
  | panicked
deriving DecidableEq, Repr

/-- The allow-list of hosts with an organization in the path
(`hosts_w_organization_in_path`). -/
def allowHosts : List String := ["dev.azure.com", "ssh.dev.azure.com"]

/-- The `urlpath` of `GitUrl::parse`: for `Ssh` the canonical path with its
first character removed (the Rust slice `path()[1..]`; the empty-path panic
case is excluded at the call site), otherwise the canonical path itself. -/
def urlpathOf (scheme : Scheme) (normalized : Url) : String :=
  if scheme = .ssh then strDrop1 normalized.path else normalized.path

/-- The owner/organization/fullname extraction of `GitUrl::parse`
(src/lib.rs lines 224–316), on the non-empty segment list
`sp0 :: spRest` (right-to-left).  `.inl` carries an early `return` or a
panic, `.inr` the extracted triple. -/
def GitUrl.extractMeta (url : String) (scheme : Scheme) (host? : Option String)
    (sp0 : String) (spRest : List String) (name : String) :
    ParseOutcome ⊕ (Option String × Option String × String) :=
  match scheme with
  | .file => .inr (none, none, name)
  | _ =>
    match host? with
    | none => .inl (.err .urlHost)
    | some hostStr =>
      if allowHosts.contains hostStr then
        match scheme with
        | .ssh =>
          match spRest with
          | sp1 :: sp2 :: _ =>
            .inr (some sp1, some sp2, sp2 ++ "/" ++ sp1 ++ "/" ++ sp0)
          | _ => .inl .panicked
        | .https =>
          match spRest with
          | _sp1 :: sp2 :: sp3 :: _ =>
            .inr (some sp2, some sp3, sp3 ++ "/" ++ sp2 ++ "/" ++ sp0)
          | _ => .inl .panicked
        | _ => .inl (.err .unsupportedScheme)
      else
        if !strStarts url "ssh" && (sp0 :: spRest).length < 2 then
          .inl (.err .malformedGitUrl)
        else
          match spRest with
          | sp1 :: _ => .inr (some sp1, none, sp1 ++ "/" ++ name)
          | [] => .inr (some sp0, none, sp0 ++ "/" ++ name)

/-- The final `Ok(GitUrl { .. })` assembly of `GitUrl::parse`
(src/lib.rs lines 318–350). -/
def GitUrl.assemble (url : String) (normalized : Url) (scheme : Scheme)
    (owner organization : Option String) (name fullname : String) : GitUrl :=
  { host := match scheme with
      | .file => none
      | _ => normalized.host
    name := name
    owner := owner
    organization := organization
    fullname := fullname
    scheme := scheme
    user := if normalized.username = "" then none else some normalized.username
    token := normalized.password
    port := normalized.port
    path := match scheme with
      | .file =>
        match normalized.host with
        | some h => h ++ urlpathOf scheme normalized
        | none => urlpathOf scheme normalized
      | _ => urlpathOf scheme normalized
    git_suffix := strEnds (urlpathOf scheme normalized) ".git"
    scheme_pfx := strContains url "://" || strStarts url "git:" }

/-- Embedding of `GitUrl::parse` (src/lib.rs lines 182–351).  Indexing
`splitpath[i]` and the slice `path()[1..]` panic when out of bounds, which
the embedding surfaces as `ParseOutcome.panicked`. -/
def GitUrl.parse (url : String) : ParseOutcome :=
  match normalizeUrl url with
  | .error e => .err (.normalizeUrl e)
  | .ok normalized =>
    match Scheme.fromStr normalized.scheme with
    | .error _ => .err .unsupportedScheme
    | .ok scheme =>
      if scheme = .ssh && normalized.path = "" then .panicked
      else
        match rsplitTerm (urlpathOf scheme normalized) with
        | [] => .panicked
        | sp0 :: spRest =>
          match GitUrl.extractMeta url scheme normalized.host sp0 spRest (trimEndGit sp0) with
          | .inl out => out
          | .inr (owner, organization, fullname) =>
            .ok (GitUrl.assemble url normalized scheme owner organization
              (trimEndGit sp0) fullname)

/-- Embedding of `GitUrl::trim_auth`: clone with `user` and `token`
cleared. -/
def GitUrl.trim_auth (g : GitUrl) : GitUrl :=
  { g with user := none, token := none }

/-- Embedding of `impl fmt::Display for GitUrl` (src/lib.rs lines 44–93). -/
def GitUrl.display (g : GitUrl) : String :=
  let schemePart := if g.scheme_pfx then g.scheme.str ++ "://" else ""
  let authInfo :=
    match g.scheme with
    | .ssh | .git | .gitSsh =>
      match g.user with
      | some u => u ++ "@"
      | none => ""
    | .http | .https =>
      match g.user, g.token with
      | some u, some t => u ++ ":" ++ t ++ "@"
      | some u, none => u ++ "@"
      | none, some t => t ++ "@"
      | none, none => ""
    | _ => ""
  let hostPart :=
    match g.host with
    | some h => h
    | none => ""
  let portPart :=
    match g.port with
    | some p => ":" ++ natToStr p
    | none => ""
  let pathPart :=
    match g.scheme with
    | .ssh => if g.port.isSome then "/" ++ g.path else ":" ++ g.path
    | _ => g.path
  schemePart ++ authInfo ++ hostPart ++ portPart ++ pathPart

/-- The port component of the `Display` rendering, as characters. -/
def displayPortPart : Option Nat → List Char
  | some p => ':' :: natDigits p
  | none => []

/-- The path component of the `Display` rendering, as characters. -/
def displayPathPart (g : GitUrl) : List Char :=
  match g.scheme with
  | .ssh => if g.port.isSome then '/' :: g.path.data else ':' :: g.path.data
  | _ => g.path.data

/-! ## Supporting lemmas -/

/-- A member of a character list makes `List.contains` true. -/
theorem contains_of_mem {l : List Char} {c : Char} (h : c ∈ l) : l.contains c = true := by
  simpa [List.contains] using List.elem_eq_true_of_mem h

/-- The null-byte guard fires first in `normalize_url`, at any fuel. -/
theorem normalizeUrlF_nullBytes (fuel : Nat) (url : String)
    (h : hasNullByte url = true) :
    normalizeUrlF (fuel + 1) url = .error .nullBytes := by
  rw [normalizeUrlF]
  simp [h]

/-- Splitting never yields an empty list of pieces. -/
theorem chSplit_ne_nil (sep : Char) (l : List Char) : chSplit sep l ≠ [] := by
  induction l with
  | nil => simp [chSplit]
  | cons c t ih =>
    simp only [chSplit]
    rcases h : chSplit sep t with _ | ⟨g, gs⟩
    · exact absurd h ih
    · dsimp only
      split <;> simp

/-- Pieces produced by splitting do not contain the separator. -/
theorem not_mem_of_mem_chSplit {sep : Char} {l p : List Char}
    (h : p ∈ chSplit sep l) : sep ∉ p := by
  induction l generalizing p with
  | nil =>
    simp only [chSplit, List.mem_singleton] at h
    subst h
    simp
  | cons c t ih =>
    simp only [chSplit] at h
    rcases ht : chSplit sep t with _ | ⟨g, gs⟩
    · exact absurd ht (chSplit_ne_nil sep t)
    · rw [ht] at h
      by_cases hc : c = sep
      · simp only [hc, beq_self_eq_true, if_true] at h
        rcases List.mem_cons.mp h with rfl | hmem
        · simp
        · exact ih (ht ▸ hmem)
      · simp only [beq_iff_eq, hc, if_false] at h
        rcases List.mem_cons.mp h with rfl | hmem
        · intro hin
          rcases List.mem_cons.mp hin with rfl | hing
          · exact hc rfl
          · exact ih (ht ▸ List.mem_cons_self g gs) hing
        · exact ih (ht ▸ List.mem_cons.mpr (Or.inr hmem))

/-- Splitting a separator-free list yields that list as the single piece. -/
theorem chSplit_eq_single {sep : Char} {l : List Char} (h : sep ∉ l) :
    chSplit sep l = [l] := by
  induction l with
  | nil => rfl
  | cons c t ih =>
    have hc : ¬c = sep := fun hc => h (hc ▸ List.mem_cons_self c t)
    have ht : sep ∉ t := fun hin => h (List.mem_cons.mpr (Or.inr hin))
    simp [chSplit, ih ht, hc]

/-- Splitting a list containing the separator yields at least two pieces. -/
theorem two_le_chSplit_length {sep : Char} {l : List Char} (h : sep ∈ l) :
    2 ≤ (chSplit sep l).length := by
  induction l with
  | nil => simp at h
  | cons c t ih =>
    simp only [chSplit]
    rcases ht : chSplit sep t with _ | ⟨g, gs⟩
    · exact absurd ht (chSplit_ne_nil sep t)
    · dsimp only
      rcases List.mem_cons.mp h with rfl | hmem
      · split <;> simp_all
      · have h2 := ih hmem
        rw [ht] at h2
        simp only [List.length_cons] at h2
        split <;> (simp only [List.length_cons]; omega)

/-- The last piece of a split is determined by the text after the last
separator occurrence introduced by an append. -/
theorem chSplit_append_sep_getLastD (sep : Char) (xs ys : List Char)
    (d : List Char) :
    (chSplit sep (xs ++ sep :: ys)).getLastD d = (chSplit sep ys).getLastD d := by
  induction xs generalizing d with
  | nil =>
    simp only [List.nil_append, chSplit]
    rcases ht : chSplit sep ys with _ | ⟨g, gs⟩
    · exact absurd ht (chSplit_ne_nil sep ys)
    · simp [List.getLastD_cons]
  | cons x xs ih =>
    simp only [List.cons_append, chSplit]
    rcases ht : chSplit sep (xs ++ sep :: ys) with _ | ⟨g, gs⟩
    · exact absurd ht (chSplit_ne_nil sep (xs ++ sep :: ys))
    · dsimp only
      have hlen : 2 ≤ (chSplit sep (xs ++ sep :: ys)).length :=
        two_le_chSplit_length (by simp)
      rw [ht] at hlen
      simp only [List.length_cons] at hlen
      rcases gs with _ | ⟨g1, gs1⟩
      · simp at hlen
      · have ihe := ih d
        rw [ht] at ihe
        split <;> simp_all [List.getLastD_cons]

/-- Compute the final `/`-component from an explicit decomposition of the
string around its last separator. -/
theorem lastComp_eq_of_split (s : String) (xs ys : List Char)
    (hdata : s.data = xs ++ '/' :: ys) (hfree : '/' ∉ ys) :
    lastComp s = String.mk ys := by
  unfold lastComp
  rw [hdata, chSplit_append_sep_getLastD, chSplit_eq_single hfree]
  simp [List.getLastD_cons]

/-- A `/`-free string is its own final `/`-component. -/
theorem lastComp_eq_self {s : String} (hfree : '/' ∉ s.data) : lastComp s = s := by
  unfold lastComp
  rw [chSplit_eq_single hfree]
  simp [List.getLastD_cons]

/-- Segments produced by `rsplit_terminator` are `/`-free. -/
theorem no_slash_of_mem_rsplitTerm {s p : String} (h : p ∈ rsplitTerm s) :
    '/' ∉ p.data := by
  unfold rsplitTerm at h
  rw [List.mem_reverse] at h
  rcases List.mem_map.mp h with ⟨q, hq, rfl⟩
  have hq' : q ∈ chSplit '/' s.data := by
    revert hq
    split
    · intro hq
      exact (List.dropLast_sublist _).mem hq
    · exact fun hq => hq
  exact fun hc => not_mem_of_mem_chSplit hq' hc

/-- A list whose head does not match the reversed `.git` pattern is fixed by
`trimGitRev`. -/
theorem trimGitRev_eq_self {l : List Char}
    (h : ∀ rest, l ≠ 't' :: 'i' :: 'g' :: '.' :: rest) : trimGitRev l = l := by
  rw [trimGitRev.eq_def]
  split
  · rename_i rest
    exact absurd rfl (h rest)
  · rfl

/-- `trimGitRev` is idempotent. -/
theorem trimGitRev_idem (l : List Char) : trimGitRev (trimGitRev l) = trimGitRev l := by
  induction l using trimGitRev.induct with
  | case1 rest ih => rw [trimGitRev]; exact ih
  | case2 l h =>
    have e : trimGitRev l = l := trimGitRev_eq_self fun rest hr => h rest hr
    rw [e, e]

/-- `trimGitRev` only removes characters. -/
theorem mem_of_mem_trimGitRev {c : Char} {l : List Char}
    (h : c ∈ trimGitRev l) : c ∈ l := by
  induction l using trimGitRev.induct with
  | case1 rest ih =>
    rw [trimGitRev] at h
    simp [ih h]
  | case2 l he =>
    rwa [trimGitRev_eq_self fun rest hr => he rest hr] at h

/-- Rust `trim_end_matches(".git")` is idempotent. -/
theorem trimEndGit_idem (s : String) : trimEndGit (trimEndGit s) = trimEndGit s := by
  unfold trimEndGit trimGitChars
  simp [List.reverse_reverse, trimGitRev_idem]

/-- `trim_end_matches(".git")` preserves `/`-freeness. -/
theorem no_slash_trimEndGit {s : String} (h : '/' ∉ s.data) :
    '/' ∉ (trimEndGit s).data := by
  intro hc
  unfold trimEndGit trimGitChars at hc
  simp only [List.mem_reverse] at hc
  exact h (List.mem_reverse.mp (mem_of_mem_trimGitRev hc))

/-- The code point of a valid `Char.ofNat` is the given number. -/
theorem toNat_ofNat_valid {n : Nat} (h : n.isValidChar) : (Char.ofNat n).toNat = n := by
  rw [Char.ofNat, dif_pos h]
  rfl

/-- Characters are determined by their code points. -/
theorem char_eq_of_toNat {c d : Char} (h : c.toNat = d.toNat) : c = d := by
  apply Char.ext
  exact UInt32.eq_of_toBitVec_eq (BitVec.eq_of_toNat_eq h)

/-- Characters with different code points compare `BEq`-false. -/
theorem char_beq_false {c d : Char} (h : c.toNat ≠ d.toNat) : (c == d) = false :=
  beq_eq_false_iff_ne.mpr fun he => h (he ▸ rfl)

/-- Unsigned 32-bit order agrees with the order of the underlying numbers. -/
theorem uint32_le_iff (a b : UInt32) : a ≤ b ↔ a.toNat ≤ b.toNat := by
  rw [UInt32.le_def, BitVec.le_def]
  rfl

/-- A character in the decimal range is a digit. -/
theorem char_isDigit_of_range {c : Char} (h1 : 48 ≤ c.toNat) (h2 : c.toNat ≤ 57) :
    c.isDigit = true := by
  simp only [Char.isDigit, Bool.and_eq_true, decide_eq_true_eq]
  exact ⟨(uint32_le_iff _ _).mpr h1, (uint32_le_iff _ _).mpr h2⟩

/-- Code point of the lower-cased character. -/
theorem lowChar_toNat (c : Char) :
    (lowChar c).toNat =
      if 65 ≤ c.toNat ∧ c.toNat ≤ 90 then c.toNat + 32 else c.toNat := by
  have hb : ((65 ≤ c.toNat && c.toNat ≤ 90) = true) ↔ (65 ≤ c.toNat ∧ c.toNat ≤ 90) := by
    simp
  unfold lowChar
  by_cases h : 65 ≤ c.toNat ∧ c.toNat ≤ 90
  · rw [if_pos (hb.mpr h), if_pos h]
    exact toNat_ofNat_valid (Or.inl (by omega))
  · rw [if_neg (fun hc => h (hb.mp hc)), if_neg h]

/-- Lower-casing is idempotent. -/
theorem lowChar_idem (c : Char) : lowChar (lowChar c) = lowChar c := by
  apply char_eq_of_toNat
  rw [lowChar_toNat (lowChar c), lowChar_toNat c]
  by_cases h : 65 ≤ c.toNat ∧ c.toNat ≤ 90
  · rw [if_pos h, if_neg (by omega)]
  · rw [if_neg h, if_neg h]

/-- Lower-casing a list of characters twice is the same as once. -/
theorem map_lowChar_idem (l : List Char) :
    (l.map lowChar).map lowChar = l.map lowChar := by
  induction l with
  | nil => rfl
  | cons c t ih => simp [lowChar_idem, ih]

/-- `takeWhile` runs through a prefix whose characters all satisfy the
predicate. -/
theorem takeWhile_append_all {p : Char → Bool} {a : List Char} (b : List Char)
    (h : ∀ c ∈ a, p c = true) : (a ++ b).takeWhile p = a ++ b.takeWhile p := by
  induction a with
  | nil => simp
  | cons x xs ih =>
    have hx : p x = true := h x (List.mem_cons_self _ _)
    simp [List.takeWhile_cons, hx, ih fun c hc => h c (List.mem_cons.mpr (Or.inr hc))]

/-- `dropWhile` runs through a prefix whose characters all satisfy the
predicate. -/
theorem dropWhile_append_all {p : Char → Bool} {a : List Char} (b : List Char)
    (h : ∀ c ∈ a, p c = true) : (a ++ b).dropWhile p = b.dropWhile p := by
  induction a with
  | nil => simp
  | cons x xs ih =>
    have hx : p x = true := h x (List.mem_cons_self _ _)
    simp [List.dropWhile_cons, hx, ih fun c hc => h c (List.mem_cons.mpr (Or.inr hc))]

/-- `takeWhile` stops at a failing head. -/
theorem takeWhile_cons_false (p : Char → Bool) {x : Char} (xs : List Char)
    (h : p x = false) : (x :: xs).takeWhile p = [] := by
  simp [List.takeWhile_cons, h]

/-- `dropWhile` keeps a failing head. -/
theorem dropWhile_cons_false (p : Char → Bool) {x : Char} (xs : List Char)
    (h : p x = false) : (x :: xs).dropWhile p = x :: xs := by
  simp [List.dropWhile_cons, h]

/-- The head surviving a `dropWhile` fails the predicate. -/
theorem dropWhile_head_false {p : Char → Bool} {l r : List Char} {c : Char}
    (h : l.dropWhile p = c :: r) : p c = false := by
  induction l with
  | nil => cases h
  | cons x xs ih =>
    rw [List.dropWhile_cons] at h
    by_cases hx : p x = true
    · rw [if_pos hx] at h
      exact ih h
    · rw [if_neg hx] at h
      cases h
      exact Bool.not_eq_true _ ▸ hx

/-- A `dropWhile` over characters that all fail is the identity. -/
theorem dropWhile_all_false {p : Char → Bool} {l : List Char}
    (h : ∀ c ∈ l, p c = false) : l.dropWhile p = l := by
  cases l with
  | nil => rfl
  | cons x xs => exact dropWhile_cons_false p xs (h x (List.mem_cons_self _ _))

/-- A list is a prefix of itself followed by anything. -/
theorem chPre_append (a r : List Char) : chPre a (a ++ r) = true := by
  induction a with
  | nil => rfl
  | cons x xs ih => simp [chPre, ih]

/-- A one-character suffix test only looks at the last character. -/
theorem chSuf_append_right {x : Char} {a q : List Char} (hq : q ≠ []) :
    chSuf [x] (a ++ q) = chSuf [x] q := by
  unfold chSuf
  rw [List.reverse_append]
  obtain ⟨c, r, hr⟩ : ∃ c r, q.reverse = c :: r := by
    cases hq' : q.reverse with
    | nil => exact absurd (List.reverse_eq_nil_iff.mp hq') hq
    | cons c r => exact ⟨c, r, rfl⟩
  rw [hr]
  simp [chPre]

/-- Trimming trailing slashes from a list not ending in a slash is the
identity. -/
theorem trimSlashes_eq_self {l : List Char} (h : chSuf ['/'] l = false) :
    trimSlashes l = l := by
  unfold trimSlashes
  cases hr : l.reverse with
  | nil =>
    simp [List.reverse_eq_nil_iff.mp hr]
  | cons c r =>
    have hc : (c == '/') = false := by
      unfold chSuf at h
      rw [hr] at h
      simp only [chPre, Bool.and_eq_true] at h ⊢
      cases hcc : ('/' == c)
      · exact beq_eq_false_iff_ne.mpr fun he => (beq_eq_false_iff_ne.mp hcc) he.symm
      · simp [hcc, chPre] at h
    rw [dropWhile_cons_false (fun x => x == '/') r hc, ← hr, List.reverse_reverse]

/-- Trimming trailing slashes from a string not ending in `/` is the
identity. -/
theorem strTrimSlashes_eq_self {s : String} (h : strEnds s "/" = false) :
    strTrimSlashes s = s := by
  unfold strTrimSlashes
  rw [trimSlashes_eq_self h]

/-- `chBreakFirst` finds nothing in a separator-free list. -/
theorem chBreakFirst_not_mem {sep : Char} {l : List Char} (h : sep ∉ l) :
    chBreakFirst sep l = none := by
  induction l with
  | nil => rfl
  | cons c t ih =>
    have hc : (c == sep) = false :=
      beq_eq_false_iff_ne.mpr fun he => h (he ▸ List.mem_cons_self c t)
    simp only [chBreakFirst, hc, Bool.false_eq_true, if_false]
    rw [ih fun hm => h (List.mem_cons.mpr (Or.inr hm))]

/-- `chBreakFirst` finding nothing means the separator is absent. -/
theorem chBreakFirst_eq_none {sep : Char} {l : List Char}
    (h : chBreakFirst sep l = none) : sep ∉ l := by
  induction l with
  | nil => simp
  | cons c t ih =>
    intro hm
    by_cases hc : c = sep
    · simp [chBreakFirst, hc] at h
    · simp only [chBreakFirst, beq_iff_eq, hc, if_false] at h
      rcases hsplit : chBreakFirst sep t with _ | ⟨a, b⟩
      · exact ih hsplit ((List.mem_cons.mp hm).resolve_left fun he => hc he.symm)
      · rw [hsplit] at h
        cases h

/-- Decomposition of a successful `chBreakFirst`. -/
theorem chBreakFirst_eq_some {sep : Char} {l x y : List Char}
    (h : chBreakFirst sep l = some (x, y)) : l = x ++ sep :: y ∧ sep ∉ x := by
  induction l generalizing x y with
  | nil => cases h
  | cons c t ih =>
    by_cases hc : c = sep
    · simp only [chBreakFirst, hc, beq_self_eq_true, if_true] at h
      rcases h with ⟨⟩
      exact ⟨by simp [hc], by simp⟩
    · simp only [chBreakFirst, beq_iff_eq, hc, if_false] at h
      rcases hsplit : chBreakFirst sep t with _ | ⟨a, b⟩
      · rw [hsplit] at h
        cases h
      · rw [hsplit] at h
        rcases h with ⟨⟩
        obtain ⟨ht, hna⟩ := ih hsplit
        exact ⟨by rw [List.cons_append, ht],
          fun hm => (List.mem_cons.mp hm).elim (fun he => hc he.symm) hna⟩

/-- `chBreakFirst` splits at the first occurrence. -/
theorem chBreakFirst_append {sep : Char} {a : List Char} (b : List Char)
    (h : sep ∉ a) : chBreakFirst sep (a ++ sep :: b) = some (a, b) := by
  induction a with
  | nil => simp [chBreakFirst]
  | cons x xs ih =>
    have hx : (x == sep) = false :=
      beq_eq_false_iff_ne.mpr fun he => h (he ▸ List.mem_cons_self x xs)
    simp only [List.cons_append, chBreakFirst, hx, Bool.false_eq_true, if_false,
      List.append_eq]
    rw [ih fun hm => h (List.mem_cons.mpr (Or.inr hm))]

/-- `chBreakLast` finds nothing in a separator-free list. -/
theorem chBreakLast_not_mem {sep : Char} {l : List Char} (h : sep ∉ l) :
    chBreakLast sep l = none := by
  unfold chBreakLast
  rw [chBreakFirst_not_mem (by simpa using h)]

/-- Decomposition of a successful `chBreakLast`. -/
theorem chBreakLast_eq_some {sep : Char} {l x y : List Char}
    (h : chBreakLast sep l = some (x, y)) : l = x ++ sep :: y ∧ sep ∉ y := by
  unfold chBreakLast at h
  rcases hsplit : chBreakFirst sep l.reverse with _ | ⟨a, b⟩
  · rw [hsplit] at h
    cases h
  · rw [hsplit] at h
    rcases h with ⟨⟩
    obtain ⟨hrev, hna⟩ := chBreakFirst_eq_some hsplit
    constructor
    · have := congrArg List.reverse hrev
      simpa [List.reverse_append] using this
    · simpa using hna

/-- Preprocessing is the identity on strings of printable characters. -/
theorem preprocess_id {l : List Char} (h : ∀ c ∈ l, 32 < c.toNat) :
    preprocess l = l := by
  unfold preprocess
  have hp : ∀ c ∈ l, (decide (c.toNat ≤ 32)) = false := fun c hc => by
    simpa using Nat.not_le.mpr (h c hc)
  rw [dropWhile_all_false hp]
  rw [dropWhile_all_false fun c hc => hp c (List.mem_reverse.mp hc)]
  rw [List.reverse_reverse]
  apply List.filter_eq_self.mpr
  intro c hc
  have h1 : (c == '\t') = false := char_beq_false (by
    have := h c hc
    intro he
    rw [show ('\t').toNat = 9 from rfl] at he
    omega)
  have h2 : (c == '\n') = false := char_beq_false (by
    have := h c hc
    intro he
    rw [show ('\n').toNat = 10 from rfl] at he
    omega)
  have h3 : (c == '\r') = false := char_beq_false (by
    have := h c hc
    intro he
    rw [show ('\r').toNat = 13 from rfl] at he
    omega)
  simp [h1, h2, h3]

/-- Characters produced by percent-encoding: `%`, decimal digits, or
uppercase hex letters. -/
theorem mem_pctEnc_toNat {n : Nat} {d : Char} (hd : d ∈ pctEnc n) :
    d.toNat = 37 ∨ (48 ≤ d.toNat ∧ d.toNat ≤ 57) ∨ (65 ≤ d.toNat ∧ d.toNat ≤ 70) := by
  have hex : ∀ m : Nat, m < 16 →
      ((if m < 10 then Char.ofNat (48 + m) else Char.ofNat (55 + m)).toNat = 48 + m ∧ m < 10) ∨
      ((if m < 10 then Char.ofNat (48 + m) else Char.ofNat (55 + m)).toNat = 55 + m ∧ 10 ≤ m) := by
    intro m hm
    by_cases h10 : m < 10
    · exact Or.inl ⟨by rw [if_pos h10]; exact toNat_ofNat_valid (Or.inl (by omega)), h10⟩
    · exact Or.inr ⟨by rw [if_neg h10]; exact toNat_ofNat_valid (Or.inl (by omega)), by omega⟩
  unfold pctEnc at hd
  simp only [List.mem_cons, List.not_mem_nil, or_false] at hd
  rcases hd with rfl | rfl | rfl
  · exact Or.inl rfl
  · rcases hex (n / 16 % 16) (Nat.mod_lt _ (by omega)) with ⟨he, hlt⟩ | ⟨he, hge⟩
    · exact Or.inr (Or.inl ⟨by omega, by omega⟩)
    · exact Or.inr (Or.inr ⟨by omega, by omega⟩)
  · rcases hex (n % 16) (Nat.mod_lt _ (by omega)) with ⟨he, hlt⟩ | ⟨he, hge⟩
    · exact Or.inr (Or.inl ⟨by omega, by omega⟩)
    · exact Or.inr (Or.inr ⟨by omega, by omega⟩)

/-- The digit characters of a number, at sufficient fuel: decimal range and
round trip. -/
theorem natDigitsAux_spec : ∀ fuel n, n < fuel →
    (∀ c ∈ natDigitsAux fuel n, 48 ≤ c.toNat ∧ c.toNat ≤ 57) ∧
    digitsToNat (natDigitsAux fuel n) = n ∧ natDigitsAux fuel n ≠ [] := by
  intro fuel
  induction fuel with
  | zero => intro n hn; omega
  | succ fuel ih =>
    intro n hn
    by_cases h10 : n < 10
    · refine ⟨?_, ?_, ?_⟩ <;> simp only [natDigitsAux, if_pos h10]
      · intro c hc
        simp only [List.mem_singleton] at hc
        subst hc
        rw [toNat_ofNat_valid (Or.inl (by omega))]
        omega
      · unfold digitsToNat
        simp only [List.foldl_cons, List.foldl_nil]
        rw [toNat_ofNat_valid (Or.inl (by omega))]
        omega
      · simp
    · have hdiv : n / 10 < fuel := by
        have := Nat.div_lt_self (by omega : 0 < n) (by omega : 1 < 10)
        omega
      obtain ⟨ihr, ihv, ihne⟩ := ih (n / 10) hdiv
      have hlast : (Char.ofNat (48 + n % 10)).toNat = 48 + n % 10 :=
        toNat_ofNat_valid (Or.inl (by have := Nat.mod_lt n (by omega : 0 < 10); omega))
      refine ⟨?_, ?_, ?_⟩ <;> simp only [natDigitsAux, if_neg h10]
      · intro c hc
        rcases List.mem_append.mp hc with hc | hc
        · exact ihr c hc
        · simp only [List.mem_singleton] at hc
          subst hc
          rw [hlast]
          have := Nat.mod_lt n (by omega : 0 < 10)
          omega
      · unfold digitsToNat at ihv ⊢
        rw [List.foldl_append]
        simp only [List.foldl_cons, List.foldl_nil]
        rw [ihv, hlast]
        have := Nat.div_add_mod n 10
        omega
      · simp

/-- Digit characters of a rendered number are in the decimal range. -/
theorem natDigits_range {n : Nat} : ∀ c ∈ natDigits n, 48 ≤ c.toNat ∧ c.toNat ≤ 57 :=
  (natDigitsAux_spec (n + 1) n (by omega)).1

/-- Parsing the rendered decimal digits of a number recovers it. -/
theorem digitsToNat_natDigits (n : Nat) : digitsToNat (natDigits n) = n :=
  (natDigitsAux_spec (n + 1) n (by omega)).2.1

/-- A rendered number has at least one digit. -/
theorem natDigits_ne_nil {n : Nat} : natDigits n ≠ [] :=
  (natDigitsAux_spec (n + 1) n (by omega)).2.2

/-- Numeric reading of `safePathChar`. -/
theorem safePathChar_iff {sp : Bool} {c : Char} :
    safePathChar sp c = true ↔
      32 < c.toNat ∧ c.toNat ≠ 127 ∧ c.toNat ≠ 63 ∧ c.toNat ≠ 35 ∧
      c.toNat ≠ 34 ∧ c.toNat ≠ 60 ∧ c.toNat ≠ 62 ∧ c.toNat ≠ 96 ∧
      c.toNat ≠ 123 ∧ c.toNat ≠ 125 ∧ (sp = true → c.toNat ≠ 92) := by
  unfold safePathChar
  cases sp <;> simp <;> tauto

/-- Numeric reading of `hostWfChar`. -/
theorem hostWfChar_iff {sp : Bool} {c : Char} :
    hostWfChar sp c = true ↔
      32 < c.toNat ∧ c.toNat ≠ 35 ∧ c.toNat ≠ 47 ∧ c.toNat ≠ 60 ∧
      c.toNat ≠ 62 ∧ c.toNat ≠ 63 ∧ c.toNat ≠ 64 ∧ c.toNat ≠ 91 ∧
      c.toNat ≠ 92 ∧ c.toNat ≠ 93 ∧ c.toNat ≠ 94 ∧ c.toNat ≠ 124 ∧
      c.toNat ≠ 127 ∧ (sp = true → c.toNat ≠ 37) ∧ c.toNat ≠ 58 := by
  unfold hostWfChar hostCharBad
  cases sp <;> simp <;> omega

/-- Host-admissible characters stay admissible under lower-casing. -/
theorem hostWfChar_lowChar {sp : Bool} {c : Char} (h : hostWfChar sp c = true) :
    hostWfChar sp (lowChar c) = true := by
  rw [hostWfChar_iff] at h ⊢
  rw [lowChar_toNat]
  by_cases hc : 65 ≤ c.toNat ∧ c.toNat ≤ 90
  · rw [if_pos hc]
    refine ⟨by omega, by omega, by omega, by omega, by omega, by omega, by omega,
      by omega, by omega, by omega, by omega, by omega, by omega, fun _ => by omega,
      by omega⟩
  · rw [if_neg hc]
    exact h

/-- Characters produced by the path-character encoding are safe, provided
the source character is not a query or fragment delimiter (those are cut
before encoding). -/
theorem mem_encodePathChar_safe {special : Bool} {c d : Char}
    (hq : c.toNat ≠ 63) (hh : c.toNat ≠ 35)
    (hd : d ∈ encodePathChar special c) : safePathChar special d = true := by
  unfold encodePathChar at hd
  split at hd
  · simp only [List.mem_singleton] at hd
    subst hd
    rw [safePathChar_iff]
    exact ⟨by decide, by decide, by decide, by decide, by decide, by decide,
      by decide, by decide, by decide, by decide, fun _ => by decide⟩
  · split at hd
    · rcases mem_pctEnc_toNat hd with he | he | he <;> rw [safePathChar_iff] <;>
        exact ⟨by omega, by omega, by omega, by omega, by omega, by omega,
          by omega, by omega, by omega, by omega, fun _ => by omega⟩
    · simp only [List.mem_singleton] at hd
      subst hd
      rename_i hsp henc
      rw [safePathChar_iff]
      simp only [Bool.and_eq_true, beq_iff_eq, not_and, Bool.not_eq_true] at hsp
      simp only [Bool.or_eq_true, beq_iff_eq, decide_eq_true_eq, not_or] at henc
      push_neg at henc
      simp only [and_assoc] at henc
      obtain ⟨h1, h2, h3, h4, h5, h6, h7, h8⟩ := henc
      refine ⟨by omega, h2, hq, hh, h3, h4, h5, h6, h7, h8, fun hsp2 => ?_⟩
      intro h92
      rw [hsp2] at hsp
      simp only [Bool.true_and] at hsp
      exact absurd h92 (by simpa using hsp)

/-- A safe path character is not a query or fragment delimiter. -/
theorem safe_not_qf {special : Bool} {c : Char} (h : safePathChar special c = true) :
    (!(c == '?' || c == '#')) = true := by
  rw [safePathChar_iff] at h
  have h1 : (c == '?') = false :=
    char_beq_false (by rw [show ('?').toNat = 63 from rfl]; exact h.2.2.1)
  have h2 : (c == '#') = false :=
    char_beq_false (by rw [show ('#').toNat = 35 from rfl]; exact h.2.2.2.1)
  simp [h1, h2]

/-- `takeWhile` over an all-true list is the identity. -/
theorem takeWhile_all_true {p : Char → Bool} {l : List Char}
    (h : ∀ c ∈ l, p c = true) : l.takeWhile p = l := by
  induction l with
  | nil => rfl
  | cons x xs ih =>
    rw [List.takeWhile_cons, if_pos (h x (List.mem_cons_self _ _)),
      ih fun c hc => h c (List.mem_cons.mpr (Or.inr hc))]

/-- Every character of an encoded path is safe. -/
theorem mem_encodePath_safe {special : Bool} {l : List Char} {d : Char}
    (hd : d ∈ encodePath special l) : safePathChar special d = true := by
  unfold encodePath at hd
  rcases List.mem_flatMap.mp hd with ⟨c, hc, hdc⟩
  have hpred := List.mem_takeWhile_imp hc
  have hq : c.toNat ≠ 63 := fun he => by
    have hce : c = '?' := char_eq_of_toNat (by rw [he]; rfl)
    simp [hce] at hpred
  have hh : c.toNat ≠ 35 := fun he => by
    have hce : c = '#' := char_eq_of_toNat (by rw [he]; rfl)
    simp [hce] at hpred
  exact mem_encodePathChar_safe hq hh hdc

/-- Every character of a file-path encoding is safe (even for a special
scheme). -/
theorem mem_encodeFilePath_safe {l : List Char} {d : Char}
    (hd : d ∈ l.flatMap encodeFilePathChar) : safePathChar true d = true := by
  rcases List.mem_flatMap.mp hd with ⟨c, _, hdc⟩
  unfold encodeFilePathChar at hdc
  split at hdc
  · rcases mem_pctEnc_toNat hdc with he | he | he <;> rw [safePathChar_iff] <;>
      exact ⟨by omega, by omega, by omega, by omega, by omega, by omega,
        by omega, by omega, by omega, by omega, fun _ => by omega⟩
  · simp only [List.mem_singleton] at hdc
    subst hdc
    rename_i henc
    rw [safePathChar_iff]
    simp only [Bool.or_eq_true, beq_iff_eq, decide_eq_true_eq, not_or] at henc
    push_neg at henc
    simp only [and_assoc] at henc
    obtain ⟨h1, h2, h3, h4, h5, h6, h7, h8, h9, h10, h11⟩ := henc
    exact ⟨by omega, h2, h9, h10, h3, h4, h5, h6, h7, h8, fun _ => h11⟩

/-- A safe character is kept verbatim by the path-character encoding. -/
theorem encodePathChar_id {special : Bool} {c : Char}
    (h : safePathChar special c = true) : encodePathChar special c = [c] := by
  rw [safePathChar_iff] at h
  obtain ⟨ha, h127, h63, h35, h34, h60, h62, h96, h123, h125, h92⟩ := h
  unfold encodePathChar
  rw [if_neg, if_neg]
  · simp only [Bool.or_eq_true, beq_iff_eq, decide_eq_true_eq, not_or, and_assoc]
    refine ⟨by omega, h127, h34, h60, h62, h96, h123, h125⟩
  · simp only [Bool.and_eq_true, beq_iff_eq, not_and]
    intro hsp
    exact fun he => h92 hsp he

/-- Encoding a path of safe characters is the identity. -/
theorem encodePath_id {special : Bool} {l : List Char}
    (h : ∀ c ∈ l, safePathChar special c = true) : encodePath special l = l := by
  unfold encodePath
  rw [takeWhile_all_true fun c hc => safe_not_qf (h c hc)]
  induction l with
  | nil => rfl
  | cons x xs ih =>
    rw [List.flatMap_cons, encodePathChar_id (h x (List.mem_cons_self _ _)),
      ih fun c hc => h c (List.mem_cons.mpr (Or.inr hc))]
    rfl

/-- A scheme outside the special set has no default port. -/
theorem defaultPort_none {s : String} (h : specialSchemes.contains s = false) :
    defaultPort s = none := by
  unfold defaultPort
  split_ifs with h1 h2 h3 h4 h5
  · exact absurd h (by rw [h1]; decide)
  · exact absurd h (by rw [h2]; decide)
  · exact absurd h (by rw [h3]; decide)
  · exact absurd h (by rw [h4]; decide)
  · exact absurd h (by rw [h5]; decide)
  · rfl

/-- Well-formedness of a parsed port. -/
theorem parsePort_wf {scheme : String} {special : Bool}
    {portRaw : Option (List Char)} {port : Option Nat}
    (h : parsePort scheme special portRaw = .ok port) :
    ∀ p, port = some p → p ≤ 65535 ∧ (special = true → defaultPort scheme ≠ some p) := by
  intro p hp
  unfold parsePort at h
  split at h
  · rcases h with ⟨⟩
    cases hp
  · rcases h with ⟨⟩
    cases hp
  · split at h
    · dsimp only at h
      split at h
      · cases h
      · split at h
        · rcases h with ⟨⟩
          cases hp
        · rcases h with ⟨⟩
          rcases hp with ⟨⟩
          rename_i hle helide
          refine ⟨by omega, fun hsp => ?_⟩
          rw [hsp] at helide
          simp only [Bool.true_and] at helide
          exact beq_eq_false_iff_ne.mp (Bool.not_eq_true _ ▸ helide)
    · cases h

/-- The raw host never contains `:`. -/
theorem authHostRaw_no_colon (auth : List Char) : ':' ∉ authHostRaw auth := by
  unfold authHostRaw
  rcases hbf : chBreakFirst ':' (authHostport auth) with _ | ⟨a, b⟩
  · exact chBreakFirst_eq_none hbf
  · exact (chBreakFirst_eq_some hbf).2

/-- Well-formedness of a parsed authority: any surviving host is non-empty
with admissible characters (lower-cased for special schemes), and any
surviving port is bounded and non-default. -/
theorem parseAuthority_wf {scheme : String} {special isFile : Bool}
    {auth : List Char} {user : String} {pass : Option String}
    {host? : Option String} {port : Option Nat}
    (h : parseAuthority scheme special isFile auth = .ok (user, pass, host?, port)) :
    (∀ hs, host? = some hs → hostWf special hs ∧
      (special = true → hs.data.map lowChar = hs.data)) ∧
    (∀ p, port = some p → p ≤ 65535 ∧ (special = true → defaultPort scheme ≠ some p)) := by
  unfold parseAuthority at h
  split at h
  · cases h
  · rename_i port' hport
    split at h
    · cases h
    · rename_i hbad
      rw [Bool.not_eq_true] at hbad
      split at h
      · split at h
        · rcases h with ⟨⟩
          exact ⟨fun hs hhs => Option.noConfusion hhs, parsePort_wf hport⟩
        · split at h
          · cases h
          · split at h
            · cases h
            · rcases h with ⟨⟩
              exact ⟨fun hs hhs => Option.noConfusion hhs, parsePort_wf hport⟩
      · rename_i hne
        split at h
        · rcases h with ⟨⟩
          exact ⟨fun hs hhs => Option.noConfusion hhs, parsePort_wf hport⟩
        · rcases h with ⟨⟩
          refine ⟨?_, parsePort_wf hport⟩
          intro hs hhs
          rcases hhs with ⟨⟩
          have hchars : ∀ c ∈ authHostRaw auth, hostWfChar special c = true := by
            intro c hc
            have hb : hostCharBad special c = false := by
              simpa using List.any_eq_false.mp hbad c hc
            have hc58 : (c.toNat == 58) = false := by
              apply beq_eq_false_iff_ne.mpr
              intro he
              exact authHostRaw_no_colon auth
                ((char_eq_of_toNat (by rw [he]; rfl) : c = ':') ▸ hc)
            unfold hostWfChar
            rw [hb, hc58]
            rfl
          cases hsp : special
          · subst hsp
            refine ⟨⟨by simpa [authHostStr] using hne, ?_⟩, fun hcontra => by cases hcontra⟩
            intro c hc
            simp only [authHostStr, Bool.false_eq_true, if_false, String.mk] at hc
            exact hchars c hc
          · subst hsp
            refine ⟨⟨?_, ?_⟩, fun _ => ?_⟩
            · simpa [authHostStr] using hne
            · intro c hc
              simp only [authHostStr, if_true, String.mk] at hc
              rcases List.mem_map.mp hc with ⟨c', hc', rfl⟩
              exact hostWfChar_lowChar (hchars c' hc')
            · simp only [authHostStr, if_true, String.mk]
              exact map_lowChar_idem _

/-- Members of a special-scheme path (with root defaulting) are safe. -/
theorem mem_orRoot_encode_safe {l : List Char} {d : Char}
    (hd : d ∈ orRootPath (encodePath true l)) : safePathChar true d = true := by
  unfold orRootPath at hd
  split at hd
  · simp only [List.mem_singleton] at hd
    subst hd
    decide
  · exact mem_encodePath_safe hd

/-- Members of an `ensureSlash`-completed path are safe. -/
theorem mem_ensureSlash_safe {l : List Char} {d : Char}
    (hd : d ∈ ensureSlash (encodePath true l)) : safePathChar true d = true := by
  unfold ensureSlash at hd
  split at hd
  · exact mem_encodePath_safe hd
  · rcases List.mem_cons.mp hd with rfl | hd'
    · decide
    · exact mem_encodePath_safe hd'

/-- A special-scheme path built from the post-authority text always starts
with a slash. -/
theorem orRoot_authDrop_slash (l : List Char) :
    chPre ['/'] (orRootPath (encodePath true (authDrop true l))) = true := by
  rcases hd : authDrop true l with _ | ⟨c, r⟩
  · rfl
  · have hdelim : authDelim true c = true := by
      have := dropWhile_head_false hd
      simpa using this
    unfold authDelim at hdelim
    simp only [Bool.true_and, Bool.or_eq_true, beq_iff_eq] at hdelim
    rcases hdelim with ((hc | hc) | hc) | hc
    · subst hc
      unfold encodePath
      rw [List.takeWhile_cons, if_pos (by decide), List.flatMap_cons,
        show encodePathChar true '/' = ['/'] from rfl]
      unfold orRootPath
      simp [chPre]
    · subst hc
      unfold encodePath
      rw [List.takeWhile_cons, if_neg (by decide)]
      rfl
    · subst hc
      unfold encodePath
      rw [List.takeWhile_cons, if_neg (by decide)]
      rfl
    · have hq : (c == '?') = false := char_beq_false (by rw [hc]; decide)
      have hh : (c == '#') = false := char_beq_false (by rw [hc]; decide)
      unfold encodePath
      rw [List.takeWhile_cons, if_pos (by simp [hq, hh]), List.flatMap_cons]
      have he : encodePathChar true c = ['/'] := by
        unfold encodePathChar
        rw [if_pos (by simp [hc])]
      rw [he]
      unfold orRootPath
      simp [chPre]

/-- A non-special authority-form path is empty or starts with a slash. -/
theorem encode_authDrop_nonspecial (l : List Char) :
    encodePath false (authDrop false l) = [] ∨
    chPre ['/'] (encodePath false (authDrop false l)) = true := by
  rcases hd : authDrop false l with _ | ⟨c, r⟩
  · exact Or.inl rfl
  · have hdelim : authDelim false c = true := by
      have := dropWhile_head_false hd
      simpa using this
    unfold authDelim at hdelim
    simp only [Bool.false_and, Bool.or_false, Bool.or_eq_true, beq_iff_eq] at hdelim
    rcases hdelim with (hc | hc) | hc
    · subst hc
      refine Or.inr ?_
      unfold encodePath
      rw [List.takeWhile_cons, if_pos (by decide), List.flatMap_cons,
        show encodePathChar false '/' = ['/'] from rfl]
      simp [chPre]
    · subst hc
      refine Or.inl ?_
      unfold encodePath
      rw [List.takeWhile_cons, if_neg (by decide)]
      rfl
    · subst hc
      refine Or.inl ?_
      unfold encodePath
      rw [List.takeWhile_cons, if_neg (by decide)]
      rfl

/-- Every URL produced by the generic parser model is well-formed. -/
theorem url_parse_wf {s : String} {u : Url} (h : Url.parse s = .ok u) : UrlWF u := by
  unfold Url.parse at h
  split at h
  · cases h
  · rename_i schemeL rest heq
    dsimp only at h
    split at h
    · rename_i hfile
      rw [hfile] at h
      have hspc : specialSchemes.contains "file" = true := by decide
      split at h
      · split at h
        · cases h
        · rename_i user pass host? port hauth
          rcases h with ⟨⟩
          have hw := parseAuthority_wf hauth
          refine ⟨?_, ?_, ?_, ?_, ?_, ?_⟩
          · intro hs hhs
            show hostWf (specialSchemes.contains "file") hs
            rw [hspc]
            exact (hw.1 hs hhs).1
          · intro _ hs hhs
            exact (hw.1 hs hhs).2 rfl
          · intro p hp
            exact (hw.2 p hp).1
          · intro p hp
            exact (hw.2 p hp).2 rfl
          · intro c hc
            show safePathChar (specialSchemes.contains "file") c = true
            rw [hspc]
            exact mem_orRoot_encode_safe hc
          · intro hs hhs
            exact Or.inr (orRoot_authDrop_slash _)
      · rcases h with ⟨⟩
        refine ⟨?_, ?_, ?_, ?_, ?_, ?_⟩
        · intro hs hhs
          exact Option.noConfusion hhs
        · intro _ hs hhs
          exact Option.noConfusion hhs
        · intro p hp
          exact Option.noConfusion hp
        · intro p hp
          exact Option.noConfusion hp
        · intro c hc
          show safePathChar (specialSchemes.contains "file") c = true
          rw [hspc]
          exact mem_ensureSlash_safe hc
        · intro hs hhs
          exact Option.noConfusion hhs
    · split at h
      · rename_i hspec
        split at h
        · cases h
        · rename_i user pass host? port hauth
          rcases h with ⟨⟩
          have hw := parseAuthority_wf hauth
          refine ⟨?_, ?_, ?_, ?_, ?_, ?_⟩
          · intro hs hhs
            show hostWf (specialSchemes.contains (String.mk schemeL)) hs
            rw [hspec]
            exact (hw.1 hs hhs).1
          · intro _ hs hhs
            exact (hw.1 hs hhs).2 rfl
          · intro p hp
            exact (hw.2 p hp).1
          · intro p hp
            exact (hw.2 p hp).2 rfl
          · intro c hc
            show safePathChar (specialSchemes.contains (String.mk schemeL)) c = true
            rw [hspec]
            exact mem_orRoot_encode_safe hc
          · intro hs hhs
            exact Or.inr (orRoot_authDrop_slash _)
      · rename_i hspec
        have hspf : specialSchemes.contains (String.mk schemeL) = false := by
          cases hb : specialSchemes.contains (String.mk schemeL)
          · rfl
          · exact absurd hb hspec
        split at h
        · split at h
          · cases h
          · rename_i user pass host? port hauth
            rcases h with ⟨⟩
            have hw := parseAuthority_wf hauth
            refine ⟨?_, ?_, ?_, ?_, ?_, ?_⟩
            · intro hs hhs
              show hostWf (specialSchemes.contains (String.mk schemeL)) hs
              rw [hspf]
              exact (hw.1 hs hhs).1
            · intro hc hs hhs
              have hc' : specialSchemes.contains (String.mk schemeL) = true := hc
              rw [hspf] at hc'
              exact Bool.noConfusion hc'
            · intro p hp
              exact (hw.2 p hp).1
            · intro p hp hc
              have hc' : defaultPort (String.mk schemeL) = some p := hc
              rw [defaultPort_none hspf] at hc'
              exact Option.noConfusion hc'
            · intro c hc
              show safePathChar (specialSchemes.contains (String.mk schemeL)) c = true
              rw [hspf]
              exact mem_encodePath_safe hc
            · intro hs hhs
              rcases encode_authDrop_nonspecial (rest.drop 2) with he | he
              · refine Or.inl ?_
                show String.mk (encodePath false (authDrop false (rest.drop 2))) = ""
                rw [he]
              · exact Or.inr he
        · have h' : (Except.ok ⟨String.mk schemeL, "", none, none, none,
              String.mk (encodePath false rest)⟩ : Except UrlParseError Url) = .ok u := by
            split at h
            · exact h
            · exact h
          rcases h' with ⟨⟩
          refine ⟨?_, ?_, ?_, ?_, ?_, ?_⟩
          · intro hs hhs
            exact Option.noConfusion hhs
          · intro _ hs hhs
            exact Option.noConfusion hhs
          · intro p hp
            exact Option.noConfusion hp
          · intro p hp
            exact Option.noConfusion hp
          · intro c hc
            show safePathChar (specialSchemes.contains (String.mk schemeL)) c = true
            rw [hspf]
            exact mem_encodePath_safe hc
          · intro hs hhs
            exact Option.noConfusion hhs

/-- URLs produced by the file-path conversion are well-formed. -/
theorem urlFromFilePath_wf {fp : String} {u : Url}
    (h : urlFromFilePath fp = some u) : UrlWF u := by
  unfold urlFromFilePath at h
  split at h
  · rcases h with ⟨⟩
    refine ⟨?_, ?_, ?_, ?_, ?_, ?_⟩
    · intro hs hhs
      exact Option.noConfusion hhs
    · intro _ hs hhs
      exact Option.noConfusion hhs
    · intro p hp
      exact Option.noConfusion hp
    · intro p hp
      exact Option.noConfusion hp
    · intro c hc
      show safePathChar (specialSchemes.contains "file") c = true
      rw [show specialSchemes.contains "file" = true from by decide]
      exact mem_encodeFilePath_safe hc
    · intro hs hhs
      exact Option.noConfusion hhs
  · cases h

/-- Every URL produced by fueled normalization is well-formed. -/
theorem normalizeUrlF_wf (fuel : Nat) {url : String} {u : Url}
    (h : normalizeUrlF fuel url = .ok u) : UrlWF u := by
  induction fuel generalizing url with
  | zero => cases h
  | succ n ih =>
    rw [normalizeUrlF] at h
    split at h
    · cases h
    · dsimp only at h
      split at h
      · rename_i u' hu'
        split at h
        · rcases h with ⟨⟩
          exact url_parse_wf hu'
        · split at h
          · exact ih h
          · exact ih h
          · cases h
      · split at h
        · split at h
          · exact ih h
          · exact ih h
          · cases h
        · split at h
          · rename_i u'' hu''
            rcases h with ⟨⟩
            exact urlFromFilePath_wf hu''
          · exact ih h
      · cases h

/-- Every URL produced by `normalize_url` is well-formed. -/
theorem normalizeUrl_wf {url : String} {u : Url}
    (h : normalizeUrl url = .ok u) : UrlWF u := normalizeUrlF_wf 2 h

/-- Code-point reading of `Char.isAlpha`. -/
theorem isAlpha_toNat {c : Char} (h : c.isAlpha = true) :
    (65 ≤ c.toNat ∧ c.toNat ≤ 90) ∨ (97 ≤ c.toNat ∧ c.toNat ≤ 122) := by
  simp only [Char.isAlpha, Char.isUpper, Char.isLower, Bool.or_eq_true,
    Bool.and_eq_true, decide_eq_true_eq] at h
  rcases h with ⟨h1, h2⟩ | ⟨h1, h2⟩
  · exact Or.inl ⟨(uint32_le_iff _ _).mp h1, (uint32_le_iff _ _).mp h2⟩
  · exact Or.inr ⟨(uint32_le_iff _ _).mp h1, (uint32_le_iff _ _).mp h2⟩

/-- Code-point reading of `Char.isDigit`. -/
theorem isDigit_toNat {c : Char} (h : c.isDigit = true) :
    48 ≤ c.toNat ∧ c.toNat ≤ 57 := by
  simp only [Char.isDigit, Bool.and_eq_true, decide_eq_true_eq] at h
  exact ⟨(uint32_le_iff _ _).mp h.1, (uint32_le_iff _ _).mp h.2⟩

/-- Scheme-token characters lie above the C0-control/space range. -/
theorem schemeCharOk_gt32 {c : Char} (h : schemeCharOk c = true) : 32 < c.toNat := by
  unfold schemeCharOk at h
  simp only [Bool.or_eq_true, beq_iff_eq] at h
  rcases h with (((ha | hd) | he) | he) | he
  · rcases isAlpha_toNat ha with ⟨h1, _⟩ | ⟨h1, _⟩ <;> omega
  · have := isDigit_toNat hd
    omega
  · subst he; decide
  · subst he; decide
  · subst he; decide

/-- Scheme-token characters are never the `:` delimiter. -/
theorem schemeCharOk_ne_colon {c : Char} (h : schemeCharOk c = true) : c ≠ ':' := by
  rintro rfl
  exact absurd h (by decide)

/-- A successful scheme decode pins the string to the canonical token. -/
theorem fromStr_ok_eq {s : String} {v : Scheme} (h : Scheme.fromStr s = .ok v) :
    s = v.str := by
  unfold Scheme.fromStr at h
  split_ifs at h with h1 h2 h3 h4 h5 h6 h7 h8 h9 <;>
    (rcases h with ⟨⟩; assumption)

/-- Splitting around a single separator occurrence gives the two sides. -/
theorem chSplit_append_sep {sep : Char} {a b : List Char}
    (ha : sep ∉ a) (hb : sep ∉ b) : chSplit sep (a ++ sep :: b) = [a, b] := by
  induction a with
  | nil =>
    simp only [List.nil_append, chSplit, chSplit_eq_single hb]
    simp only [beq_self_eq_true, if_true]
  | cons x xs ih =>
    have hx : x ≠ sep := fun he => ha (he ▸ List.mem_cons_self x xs)
    rw [List.cons_append]
    simp only [chSplit, ih fun hm => ha (List.mem_cons.mpr (Or.inr hm))]
    simp [hx]

/-- The empty string has no `rsplit_terminator` pieces. -/
theorem rsplitTerm_empty : rsplitTerm "" = [] := rfl

/-- A string whose characters all lie above the C0 range has no null byte. -/
theorem hasNullByte_false {s : String} (h : ∀ c ∈ s.data, 32 < c.toNat) :
    hasNullByte s = false := by
  unfold hasNullByte
  cases hc : s.data.contains '\x00'
  · rfl
  · have hm : ('\x00' : Char) ∈ s.data :=
      List.mem_of_elem_eq_true (by simpa [List.contains] using hc)
    have h0 := h _ hm
    rw [show ('\x00' : Char).toNat = 0 from rfl] at h0
    omega

/-- A one-character prefix test succeeds exactly on that head. -/
theorem chPre_single_iff {c : Char} {l : List Char} :
    chPre [c] l = true ↔ ∃ t, l = c :: t := by
  cases l with
  | nil => simp [chPre]
  | cons b t =>
    simp only [chPre, Bool.and_eq_true, beq_iff_eq]
    constructor
    · rintro ⟨rfl, _⟩
      exact ⟨t, rfl⟩
    · rintro ⟨t', he⟩
      rcases he with ⟨⟩
      exact ⟨rfl, trivial⟩

/-- Without a leading slash there is no leading double slash either. -/
theorem chPre_two_false {l : List Char} (h : chPre ['/'] l = false) :
    chPre ['/', '/'] l = false := by
  cases l with
  | nil => rfl
  | cons b t =>
    have h' : ((('/' : Char) == b) && true) = false := h
    rw [Bool.and_true] at h'
    show ((('/' : Char) == b) && chPre ['/'] t) = false
    rw [h', Bool.false_and]

/-- Recognition of an explicit scheme token followed by `:`. -/
theorem splitSchemeTok_eval {c : Char} {t : List Char} (rest : List Char)
    (halpha : c.isAlpha = true)
    (hok : ∀ d ∈ c :: t, schemeCharOk d = true) :
    splitSchemeTok (c :: t ++ ':' :: rest) = some ((c :: t).map lowChar, rest) := by
  have hdrop : List.dropWhile schemeCharOk (c :: (t ++ ':' :: rest)) = ':' :: rest := by
    rw [← List.cons_append, dropWhile_append_all _ hok,
      dropWhile_cons_false _ _ (by decide)]
  have htake : List.takeWhile schemeCharOk (c :: (t ++ ':' :: rest)) = c :: t := by
    rw [← List.cons_append, takeWhile_append_all _ hok,
      takeWhile_cons_false _ _ (by decide), List.append_nil]
  rw [List.cons_append]
  dsimp only [splitSchemeTok]
  rw [if_pos halpha, hdrop]
  split
  · rename_i r hr
    rcases hr with ⟨⟩
    rw [htake]
  · rename_i hne
    exact absurd rfl (hne rest)

/-- An authority without `@` has no userinfo. -/
theorem authUserinfo_no_at {l : List Char} (h : '@' ∉ l) : authUserinfo l = none := by
  unfold authUserinfo
  rw [chBreakLast_not_mem h]

/-- An authority without `@` is all host-and-port. -/
theorem authHostport_no_at {l : List Char} (h : '@' ∉ l) : authHostport l = l := by
  unfold authHostport
  rw [chBreakLast_not_mem h]

/-- An authority without `@` has an empty username. -/
theorem authUsername_no_at {l : List Char} (h : '@' ∉ l) : authUsername l = [] := by
  unfold authUsername
  rw [authUserinfo_no_at h]

/-- An authority without `@` has no password. -/
theorem authPassword_no_at {l : List Char} (h : '@' ∉ l) : authPassword l = none := by
  unfold authPassword
  rw [authUserinfo_no_at h]

/-- Host-admissible characters pass the host validation. -/
theorem hostWfChar_bad_false {sp : Bool} {c : Char} (h : hostWfChar sp c = true) :
    hostCharBad sp c = false := by
  unfold hostWfChar at h
  simp only [Bool.and_eq_true] at h
  rcases h with ⟨h1, _⟩
  cases hb : hostCharBad sp c
  · rfl
  · rw [hb] at h1
    simp at h1

/-- Reading back the rendered decimal digits of an in-range, non-default
port. -/
theorem parsePort_natDigits {scheme : String} {special : Bool} {n : Nat}
    (hle : n ≤ 65535) (hnd : special = true → defaultPort scheme ≠ some n) :
    parsePort scheme special (some (natDigits n)) = .ok (some n) := by
  rcases hd : natDigits n with _ | ⟨d, ds⟩
  · exact absurd hd natDigits_ne_nil
  · have hall : (d :: ds).all Char.isDigit = true := by
      rw [← hd]
      exact List.all_eq_true.mpr fun c hc =>
        char_isDigit_of_range (natDigits_range c hc).1 (natDigits_range c hc).2
    have hval : digitsToNat (d :: ds) = n := by
      rw [← hd, digitsToNat_natDigits]
    unfold parsePort
    show (if (d :: ds).all Char.isDigit = true then
        let v := digitsToNat (d :: ds)
        if 65535 < v then Except.error UrlParseError.invalidPort
        else if (special && defaultPort scheme == some v) = true then Except.ok none
        else Except.ok (some v)
      else Except.error UrlParseError.invalidPort) = Except.ok (some n)
    rw [if_pos hall]
    dsimp only
    rw [hval, if_neg (by omega)]
    have hcond : (special && (defaultPort scheme == some n)) = false := by
      cases hsp : special
      · rfl
      · rw [Bool.true_and]
        exact beq_eq_false_iff_ne.mpr (hnd hsp)
    rw [hcond]
    simp

/-- Evaluation of the authority parser on a rendered `host[:port]` text made
of admissible characters: no credentials, the host read back verbatim, and
the port read back. -/
theorem parseAuthority_eval (scheme : String) (special : Bool) (hst : String)
    (portL : List Char) (port : Option Nat)
    (hh1 : hst.data ≠ [])
    (hh2 : ∀ c ∈ hst.data, hostWfChar special c = true)
    (hlow : special = true → hst.data.map lowChar = hst.data)
    (hport : (port = none ∧ portL = []) ∨
      (∃ n, port = some n ∧ portL = ':' :: natDigits n ∧ n ≤ 65535 ∧
        (special = true → defaultPort scheme ≠ some n))) :
    parseAuthority scheme special false (hst.data ++ portL) =
      .ok ("", none, some hst, port) := by
  have hcol : ':' ∉ hst.data := fun hm => by
    obtain ⟨-, -, -, -, -, -, -, -, -, -, -, -, -, -, h58⟩ :=
      hostWfChar_iff.mp (hh2 _ hm)
    exact h58 rfl
  have hat0 : '@' ∉ hst.data := fun hm => by
    obtain ⟨-, -, -, -, -, -, h64, -⟩ := hostWfChar_iff.mp (hh2 _ hm)
    exact h64 rfl
  have hbadf : hst.data.any (hostCharBad special) = false :=
    List.any_eq_false.mpr fun c hc => by simp [hostWfChar_bad_false (hh2 _ hc)]
  rcases hport with ⟨hpn, hpl⟩ | ⟨n, hpn, hpl, hle, hnd⟩
  · subst hpn hpl
    rw [List.append_nil]
    have hhp : authHostport hst.data = hst.data := authHostport_no_at hat0
    have hbf : chBreakFirst ':' (authHostport hst.data) = none := by
      rw [hhp]
      exact chBreakFirst_not_mem hcol
    have hpr : authPortRaw hst.data = none := by
      unfold authPortRaw
      rw [hbf]
    have hhr : authHostRaw hst.data = hst.data := by
      unfold authHostRaw
      rw [hbf, hhp]
    have hhstr : authHostStr special hst.data = hst := by
      unfold authHostStr
      rw [hhr]
      cases hsp : special
      · rfl
      · rw [if_pos rfl, hlow hsp]
    unfold parseAuthority
    rw [hpr, show parsePort scheme special none = Except.ok none from rfl]
    split
    · rename_i e he
      cases he
    · rename_i port' hpe
      rcases hpe with ⟨⟩
      rw [hhr, hbadf]
      rw [if_neg (by simp), if_neg hh1, if_neg (by simp)]
      rw [authUsername_no_at hat0, authPassword_no_at hat0, hhstr]
      rfl
  · subst hpn hpl
    have hat : '@' ∉ hst.data ++ ':' :: natDigits n := by
      intro hmem
      rcases List.mem_append.mp hmem with hm | hm
      · exact hat0 hm
      · rcases List.mem_cons.mp hm with he | hm2
        · exact absurd he (by decide)
        · have := natDigits_range _ hm2
          rw [show ('@' : Char).toNat = 64 from rfl] at this
          omega
    have hhp : authHostport (hst.data ++ ':' :: natDigits n) =
        hst.data ++ ':' :: natDigits n := authHostport_no_at hat
    have hbf : chBreakFirst ':' (authHostport (hst.data ++ ':' :: natDigits n)) =
        some (hst.data, natDigits n) := by
      rw [hhp]
      exact chBreakFirst_append _ hcol
    have hpr : authPortRaw (hst.data ++ ':' :: natDigits n) = some (natDigits n) := by
      unfold authPortRaw
      rw [hbf]
    have hhr : authHostRaw (hst.data ++ ':' :: natDigits n) = hst.data := by
      unfold authHostRaw
      rw [hbf]
    have hhstr : authHostStr special (hst.data ++ ':' :: natDigits n) = hst := by
      unfold authHostStr
      rw [hhr]
      cases hsp : special
      · rfl
      · rw [if_pos rfl, hlow hsp]
    unfold parseAuthority
    rw [hpr, parsePort_natDigits hle hnd]
    split
    · rename_i e he
      cases he
    · rename_i port' hpe
      rcases hpe with ⟨⟩
      rw [hhr, hbadf]
      rw [if_neg (by simp), if_neg hh1, if_neg (by simp)]
      rw [authUsername_no_at hat, authPassword_no_at hat, hhstr]
      rfl

/-- Structure eta for strings, in rewrite-friendly form. -/
theorem string_eta (s : String) : String.mk s.data = s := rfl

/-- The code points relevant to authority delimiting, unpacked from host
admissibility. -/
theorem hostWfChar_unpack {sp : Bool} {c : Char} (h : hostWfChar sp c = true) :
    32 < c.toNat ∧ c.toNat ≠ 47 ∧ c.toNat ≠ 63 ∧ c.toNat ≠ 35 ∧ c.toNat ≠ 92 := by
  obtain ⟨h32, h35, h47, h60, h62, h63, h64, h91, h92, h93, h94, h124, h127, h37, h58⟩ :=
    hostWfChar_iff.mp h
  exact ⟨h32, h47, h63, h35, h92⟩

/-- A character away from the delimiter code points is no authority
delimiter. -/
theorem authDelim_false {sp : Bool} {d : Char} (h47 : d.toNat ≠ 47)
    (h63 : d.toNat ≠ 63) (h35 : d.toNat ≠ 35) (h92 : d.toNat ≠ 92) :
    authDelim sp d = false := by
  have e1 : (d == '/') = false :=
    char_beq_false (by rw [show ('/' : Char).toNat = 47 from rfl]; exact h47)
  have e2 : (d == '?') = false :=
    char_beq_false (by rw [show ('?' : Char).toNat = 63 from rfl]; exact h63)
  have e3 : (d == '#') = false :=
    char_beq_false (by rw [show ('#' : Char).toNat = 35 from rfl]; exact h35)
  have e4 : (sp && (d.toNat == 92)) = false := by
    rw [beq_eq_false_iff_ne.mpr h92, Bool.and_false]
  unfold authDelim
  rw [e1, e2, e3, e4]
  rfl

/-- Evaluation of the URL parser on a rendered authority-form URL
`tok://host[:port]path` whose pieces are canonical: lower-case scheme token,
admissible host characters (already lower-case for a special scheme), an
in-range non-default port, and a slash-led path of safe characters. -/
theorem url_parse_eval_auth (s tok hst p : String) (portL : List Char)
    (port : Option Nat) (sp : Bool)
    (hsdata : s.data = tok.data ++ ':' :: '/' :: '/' ::
      (hst.data ++ portL ++ p.data))
    (hspv : specialSchemes.contains tok = sp)
    (hfile : tok ≠ "file")
    (htok : ∃ c t, tok.data = c :: t ∧ c.isAlpha = true)
    (htokok : ∀ c ∈ tok.data, schemeCharOk c = true)
    (htoklow : tok.data.map lowChar = tok.data)
    (hh1 : hst.data ≠ [])
    (hh2 : ∀ c ∈ hst.data, hostWfChar sp c = true)
    (hlow : sp = true → hst.data.map lowChar = hst.data)
    (hport : (port = none ∧ portL = []) ∨
      (∃ n, port = some n ∧ portL = ':' :: natDigits n ∧ n ≤ 65535 ∧
        (sp = true → defaultPort tok ≠ some n)))
    (hpath : chPre ['/'] p.data = true)
    (hsafe : ∀ c ∈ p.data, safePathChar sp c = true) :
    Url.parse s = .ok ⟨tok, "", none, some hst, port, p⟩ := by
  obtain ⟨c, t, htd, halpha⟩ := htok
  obtain ⟨pt, hpt⟩ := chPre_single_iff.mp hpath
  have hgt : ∀ d ∈ tok.data ++ ':' :: '/' :: '/' :: (hst.data ++ portL ++ p.data),
      32 < d.toNat := by
    intro d hd
    rcases List.mem_append.mp hd with hm | hm
    · exact schemeCharOk_gt32 (htokok _ hm)
    · rcases List.mem_cons.mp hm with rfl | hm
      · decide
      rcases List.mem_cons.mp hm with rfl | hm
      · decide
      rcases List.mem_cons.mp hm with rfl | hm
      · decide
      rcases List.mem_append.mp hm with hm2 | hm2
      · rcases List.mem_append.mp hm2 with hm3 | hm3
        · exact (hostWfChar_unpack (hh2 _ hm3)).1
        · rcases hport with ⟨-, hpl⟩ | ⟨n, -, hpl, -, -⟩
          · rw [hpl] at hm3
            cases hm3
          · rw [hpl] at hm3
            rcases List.mem_cons.mp hm3 with rfl | hm4
            · decide
            · have := natDigits_range _ hm4
              omega
      · exact (safePathChar_iff.mp (hsafe _ hm2)).1
  have hsplit : splitSchemeTok (tok.data ++ ':' :: '/' :: '/' ::
      (hst.data ++ portL ++ p.data)) =
      some (tok.data, '/' :: '/' :: (hst.data ++ portL ++ p.data)) := by
    rw [htd, splitSchemeTok_eval _ halpha (fun d hd => htokok d (by rw [htd]; exact hd)),
      ← htd, htoklow]
  have hndel : ∀ d ∈ hst.data ++ portL, (!authDelim sp d) = true := by
    intro d hd
    rcases List.mem_append.mp hd with hm | hm
    · obtain ⟨-, h47, h63, h35, h92⟩ := hostWfChar_unpack (hh2 _ hm)
      rw [authDelim_false h47 h63 h35 h92]
      rfl
    · rcases hport with ⟨-, hpl⟩ | ⟨n, -, hpl, -, -⟩
      · rw [hpl] at hm
        cases hm
      · rw [hpl] at hm
        rcases List.mem_cons.mp hm with rfl | hm4
        · rw [authDelim_false (by decide) (by decide) (by decide) (by decide)]
          rfl
        · have := natDigits_range _ hm4
          rw [authDelim_false (by omega) (by omega) (by omega) (by omega)]
          rfl
  have hslash : authDelim sp '/' = true := by
    unfold authDelim
    simp
  have htk : authTake sp ((hst.data ++ portL) ++ p.data) = hst.data ++ portL := by
    unfold authTake
    rw [takeWhile_append_all _ hndel, hpt,
      takeWhile_cons_false _ _ (by simp [hslash]), List.append_nil]
  have hdr : authDrop sp ((hst.data ++ portL) ++ p.data) = p.data := by
    unfold authDrop
    rw [dropWhile_append_all _ hndel, hpt,
      dropWhile_cons_false _ _ (by simp [hslash]), ← hpt]
  unfold Url.parse
  rw [hsdata, preprocess_id hgt, hsplit]
  dsimp only
  rw [string_eta, if_neg hfile]
  cases sp
  · rw [if_neg (by rw [hspv]; simp), if_pos (by simp [chPre]),
      show List.drop 2 ('/' :: '/' :: ((hst.data ++ portL) ++ p.data)) =
        (hst.data ++ portL) ++ p.data from rfl,
      htk, parseAuthority_eval tok false hst portL port hh1 hh2 hlow hport]
    dsimp only
    rw [hdr, encodePath_id hsafe, string_eta]
  · obtain ⟨hc, ht, hhd⟩ : ∃ hc ht, hst.data = hc :: ht := by
      rcases hstd : hst.data with _ | ⟨hc, ht⟩
      · exact absurd hstd hh1
      · exact ⟨hc, ht, rfl⟩
    have hw := hostWfChar_unpack (hh2 hc (by rw [hhd]; exact List.mem_cons_self _ _))
    have hsk : skipSlashes ('/' :: '/' :: ((hst.data ++ portL) ++ p.data)) =
        (hst.data ++ portL) ++ p.data := by
      unfold skipSlashes
      rw [List.dropWhile_cons, if_pos (by decide), List.dropWhile_cons,
        if_pos (by decide), hhd, List.cons_append, List.cons_append]
      exact dropWhile_cons_false _ _ (by
        rw [char_beq_false (by rw [show ('/' : Char).toNat = 47 from rfl]; exact hw.2.1),
          beq_eq_false_iff_ne.mpr hw.2.2.2.2]
        rfl)
    rw [if_pos hspv, hsk, htk,
      parseAuthority_eval tok true hst portL port hh1 hh2 hlow hport]
    dsimp only
    rw [hdr, encodePath_id hsafe, hpt,
      show orRootPath ('/' :: pt) = '/' :: pt from by unfold orRootPath; simp,
      ← hpt, string_eta]

/-- Evaluation of the URL parser on an opaque `host:path` text whose head is
scheme-like: the host is swallowed as the (lower-cased) scheme and the path
is kept with no authority. -/
theorem url_parse_eval_opaque (s hst p : String)
    (hsdata : s.data = hst.data ++ ':' :: p.data)
    (hlike : schemeLike hst = true)
    (hfile : lowStr hst ≠ "file")
    (hsp : specialSchemes.contains (lowStr hst) = false)
    (hnoslash : chPre ['/'] p.data = false)
    (hsafe : ∀ c ∈ p.data, safePathChar false c = true) :
    Url.parse s = .ok ⟨lowStr hst, "", none, none, none, p⟩ := by
  obtain ⟨c, t, htd, halpha, hok⟩ : ∃ c t, hst.data = c :: t ∧ c.isAlpha = true ∧
      ∀ d ∈ c :: t, schemeCharOk d = true := by
    unfold schemeLike at hlike
    rcases hstd : hst.data with _ | ⟨c, t⟩
    · rw [hstd] at hlike
      simp at hlike
    · rw [hstd] at hlike
      dsimp only at hlike
      simp only [Bool.and_eq_true, List.all_eq_true] at hlike
      exact ⟨c, t, rfl, hlike.1, hlike.2⟩
  have hgt : ∀ d ∈ hst.data ++ ':' :: p.data, 32 < d.toNat := by
    intro d hd
    rcases List.mem_append.mp hd with hm | hm
    · exact schemeCharOk_gt32 (hok _ (htd ▸ hm))
    · rcases List.mem_cons.mp hm with rfl | hm2
      · decide
      · exact (safePathChar_iff.mp (hsafe _ hm2)).1
  have hsplit2 : splitSchemeTok (hst.data ++ ':' :: p.data) =
      some (hst.data.map lowChar, p.data) := by
    rw [htd, splitSchemeTok_eval _ halpha hok, ← htd]
  unfold Url.parse
  rw [hsdata, preprocess_id hgt, hsplit2]
  dsimp only
  rw [show String.mk (List.map lowChar hst.data) = lowStr hst from rfl,
    if_neg hfile, if_neg (by rw [hsp]; simp),
    if_neg (by rw [chPre_two_false hnoslash]; simp),
    if_neg (by rw [hnoslash]; simp),
    encodePath_id hsafe, string_eta]

/-- `normalize_url` succeeds without rewriting whenever the input has no
null byte and no trailing slash, is not a slashless `git:` shorthand, and
generic-parses to a URL whose scheme decodes. -/
theorem normalizeUrlF_ok_of_parse (fuel : Nat) {s : String} {u : Url} {v : Scheme}
    (hnull : hasNullByte s = false)
    (htrim : strTrimSlashes s = s)
    (hgit : (strStarts s "git:" && !chPre ['/'] (s.data.drop 4)) = false)
    (hp : Url.parse s = .ok u)
    (hs : Scheme.fromStr u.scheme = .ok v) :
    normalizeUrlF (fuel + 1) s = .ok u := by
  rw [normalizeUrlF, if_neg (by rw [hnull]; simp)]
  dsimp only
  rw [htrim, hgit, if_neg (by simp), hp]
  dsimp only
  rw [hs]

/-- Characters of an explicitly built string. -/
theorem string_data_mk (l : List Char) : (String.mk l).data = l := rfl

/-- Characters of the empty string. -/
theorem string_data_empty : ("" : String).data = [] := rfl

/-- Characters of the `://` separator. -/
theorem string_data_sep : ("://" : String).data = [':', '/', '/'] := rfl

/-- Characters of the `:` separator. -/
theorem string_data_colon : (":" : String).data = [':'] := rfl

/-- Characters of the `/` separator. -/
theorem string_data_slash : ("/" : String).data = ['/'] := rfl

/-- A scheme-like string starts with a letter. -/
theorem schemeLike_shape {h : String} (hl : schemeLike h = true) :
    ∃ c t, h.data = c :: t ∧ c.isAlpha = true := by
  unfold schemeLike at hl
  rcases hstd : h.data with _ | ⟨c, t⟩
  · rw [hstd] at hl
    simp at hl
  · rw [hstd] at hl
    dsimp only at hl
    simp only [Bool.and_eq_true] at hl
    exact ⟨c, t, rfl, hl.1⟩

/-- All characters of a scheme-like string are scheme-admissible. -/
theorem schemeLike_all {h : String} (hl : schemeLike h = true) :
    ∀ c ∈ h.data, schemeCharOk c = true := by
  unfold schemeLike at hl
  rcases hstd : h.data with _ | ⟨c, t⟩
  · rw [hstd] at hl
    simp at hl
  · rw [hstd] at hl
    dsimp only at hl
    simp only [Bool.and_eq_true, hstd, List.all_eq_true] at hl
    exact hl.2

/-- The slashless-`git:` rewrite of `normalize_url` never fires on an
authority-form rendering: either the token is not `git`, or the text after
`git:` starts with a slash. -/
theorem gitcheck_eval (s tok : String) (R : List Char)
    (hsdata : s.data = tok.data ++ ':' :: '/' :: '/' :: R)
    (hok : ∀ c ∈ tok.data, schemeCharOk c = true) :
    (strStarts s "git:" && !chPre ['/'] (s.data.drop 4)) = false := by
  unfold strStarts
  rw [hsdata]
  rcases htd : tok.data with _ | ⟨c, _ | ⟨d, _ | ⟨e, _ | ⟨f, r⟩⟩⟩⟩
  · simp [chPre]
  · simp [chPre]
  · simp [chPre]
  · simp [chPre]
  · have hf : (':' == f) = false := by
      have := schemeCharOk_ne_colon (hok f (by rw [htd]; simp))
      exact char_beq_false fun he =>
        this (char_eq_of_toNat he.symm)
    simp [chPre, hf]

/-- The slashless-`git:` rewrite never fires on an opaque `host:path`
rendering whose host is scheme-like and differs from `git`. -/
theorem gitcheck_opaque (s hst p : String)
    (hsdata : s.data = hst.data ++ ':' :: p.data)
    (hok : ∀ c ∈ hst.data, schemeCharOk c = true)
    (hng : hst.data ≠ ['g', 'i', 't']) :
    (strStarts s "git:" && !chPre ['/'] (s.data.drop 4)) = false := by
  unfold strStarts
  rw [hsdata]
  rcases htd : hst.data with _ | ⟨c, _ | ⟨d, _ | ⟨e, _ | ⟨f, r⟩⟩⟩⟩
  · simp [chPre]
  · simp [chPre]
  · simp [chPre]
  · have : ¬(c = 'g' ∧ d = 'i' ∧ e = 't') := by
      rintro ⟨rfl, rfl, rfl⟩
      exact hng htd
    by_cases hc : c = 'g'
    · by_cases hd : d = 'i'
      · by_cases he : e = 't'
        · exact absurd ⟨hc, hd, he⟩ this
        · have : ('t' == e) = false := char_beq_false fun h2 =>
            he (char_eq_of_toNat h2.symm)
          simp [chPre, this]
      · have : ('i' == d) = false := char_beq_false fun h2 =>
          hd (char_eq_of_toNat h2.symm)
        simp [chPre, this]
    · have : ('g' == c) = false := char_beq_false fun h2 =>
        hc (char_eq_of_toNat h2.symm)
      simp [chPre, this]
  · have hf : (':' == f) = false := by
      have := schemeCharOk_ne_colon (hok f (by rw [htd]; simp))
      exact char_beq_false fun he =>
        this (char_eq_of_toNat he.symm)
    simp [chPre, hf]

/-- A token outside the nine canonical tokens fails to decode. -/
theorem fromStr_not_token {t : String} (h : t ∉ schemeTokens) :
    Scheme.fromStr t = .error (.unsupportedScheme t) := by
  unfold Scheme.fromStr
  split_ifs with h1 h2 h3 h4 h5 h6 h7 h8 h9 <;>
    first
      | rfl
      | (exact absurd (by simp [schemeTokens, *]) h)

/-- The raw input enters the metadata extraction only through the
single-segment malformed-URL gate; once that gate is inactive the raw input
is irrelevant. -/
theorem extractMeta_switch_url {url url2 : String} {scheme : Scheme}
    {host? : Option String} {sp0 name : String} {spRest : List String}
    {t : Option String × Option String × String}
    (h : GitUrl.extractMeta url scheme host? sp0 spRest name = .inr t)
    (hcond : strStarts url2 "ssh" = true ∨ 2 ≤ (sp0 :: spRest).length) :
    GitUrl.extractMeta url2 scheme host? sp0 spRest name = .inr t := by
  cases scheme
  case file => exact h
  all_goals (
    unfold GitUrl.extractMeta at h ⊢;
    rcases host? with _ | hostStr;
    · exact absurd h (by simp);
    · (try dsimp only at h ⊢);
      by_cases hallow : allowHosts.contains hostStr = true;
      · rw [if_pos hallow] at h ⊢;
        exact h;
      · rw [if_neg hallow] at h ⊢;
        by_cases hg2 : (!strStarts url2 "ssh" &&
            decide ((sp0 :: spRest).length < 2)) = true;
        · rcases hcond with hssh | hlen;
          · rw [hssh] at hg2;
            simp at hg2;
          · simp only [Bool.and_eq_true, decide_eq_true_eq] at hg2;
            omega;
        · rw [if_neg hg2];
          by_cases hg1 : (!strStarts url "ssh" &&
              decide ((sp0 :: spRest).length < 2)) = true;
          · rw [if_pos hg1] at h;
            cases h;
          · rw [if_neg hg1] at h;
            exact h)

/-- The rendering of a credential-trimmed result with a host, as a
character list. -/
theorem display_trim_auth_data (g : GitUrl) (hostStr : String)
    (hhost : g.host = some hostStr) :
    (GitUrl.display (GitUrl.trim_auth g)).data =
      (if g.scheme_pfx then (Scheme.str g.scheme).data ++ [':', '/', '/'] else []) ++
      hostStr.data ++ displayPortPart g.port ++ displayPathPart g := by
  unfold GitUrl.display GitUrl.trim_auth
  dsimp only
  rw [hhost]
  cases hpv : g.port <;> cases hsch : g.scheme <;> cases hpfx : g.scheme_pfx <;>
    simp [Scheme.str, natToStr, displayPortPart, displayPathPart, hsch, hpv,
      String.data_append, string_data_empty, string_data_sep, string_data_colon,
      string_data_slash, string_data_mk]

/-- Inversion of the metadata extraction: every successful extraction comes
from one of the four source branches (File; allow-listed host under Ssh or
Https; plain host with at least two segments; plain host with one segment
and an `ssh`-prefixed raw input). -/
theorem extractMeta_inr {url : String} {scheme : Scheme} {host? : Option String}
    {sp0 : String} {spRest : List String} {name : String}
    {owner org : Option String} {fullname : String}
    (h : GitUrl.extractMeta url scheme host? sp0 spRest name =
      .inr (owner, org, fullname)) :
    (scheme = .file ∧ owner = none ∧ org = none ∧ fullname = name) ∨
    (∃ hostStr, scheme ≠ .file ∧ host? = some hostStr ∧
      allowHosts.contains hostStr = true ∧
      ((∃ sp1 sp2 rest, scheme = .ssh ∧ spRest = sp1 :: sp2 :: rest ∧
          owner = some sp1 ∧ org = some sp2 ∧
          fullname = sp2 ++ "/" ++ sp1 ++ "/" ++ sp0) ∨
       (∃ sp1 sp2 sp3 rest, scheme = .https ∧ spRest = sp1 :: sp2 :: sp3 :: rest ∧
          owner = some sp2 ∧ org = some sp3 ∧
          fullname = sp3 ++ "/" ++ sp2 ++ "/" ++ sp0))) ∨
    (∃ hostStr, scheme ≠ .file ∧ host? = some hostStr ∧
      allowHosts.contains hostStr = false ∧ org = none ∧
      ((∃ sp1 rest, spRest = sp1 :: rest ∧ owner = some sp1 ∧
          fullname = sp1 ++ "/" ++ name) ∨
       (spRest = [] ∧ strStarts url "ssh" = true ∧ owner = some sp0 ∧
          fullname = sp0 ++ "/" ++ name))) := by
  unfold GitUrl.extractMeta at h
  split at h
  · rcases h with ⟨⟩
    exact Or.inl ⟨rfl, rfl, rfl, rfl⟩
  · rename_i hscheme
    split at h
    · cases h
    · rename_i hostStr
      split at h
      · rename_i hallow
        split at h
        · split at h
          · rcases h with ⟨⟩
            rename_i sp1 sp2 rest
            exact Or.inr (Or.inl ⟨hostStr, by simp_all, rfl, hallow,
              Or.inl ⟨sp1, sp2, rest, rfl, rfl, rfl, rfl, rfl⟩⟩)
          · cases h
        · split at h
          · rcases h with ⟨⟩
            rename_i sp1 sp2 sp3 rest
            exact Or.inr (Or.inl ⟨hostStr, by simp_all, rfl, hallow,
              Or.inr ⟨sp1, sp2, sp3, rest, rfl, rfl, rfl, rfl, rfl⟩⟩)
          · cases h
        · cases h
      · rename_i hallow
        rw [Bool.not_eq_true] at hallow
        split at h
        · cases h
        · split at h
          · rcases h with ⟨⟩
            exact Or.inr (Or.inr ⟨hostStr, by simp_all, rfl, hallow, rfl,
              Or.inl ⟨_, _, rfl, rfl, rfl⟩⟩)
          · rcases h with ⟨⟩
            rename_i hlen
            have hssh : strStarts url "ssh" = true := by
              by_contra hns
              rw [Bool.not_eq_true] at hns
              simp [hns] at hlen
            exact Or.inr (Or.inr ⟨hostStr, by simp_all, rfl, hallow, rfl,
              Or.inr ⟨rfl, hssh, rfl, rfl⟩⟩)

/-- An early-return or panic from the extraction is never a success value. -/
theorem extractMeta_inl_not_ok {url : String} {scheme : Scheme}
    {host? : Option String} {sp0 : String} {spRest : List String} {name : String}
    {out : ParseOutcome} {g : GitUrl}
    (h : GitUrl.extractMeta url scheme host? sp0 spRest name = .inl out) :
    out ≠ .ok g := by
  unfold GitUrl.extractMeta at h
  split at h
  · cases h
  · split at h
    · cases h
      simp
    · split at h
      · split at h
        · split at h
          · cases h
          · cases h
            simp
        · split at h
          · cases h
          · cases h
            simp
        · cases h
          simp
      · split at h
        · cases h
          simp
        · split at h
          · cases h
          · cases h

/-- Inversion of a successful parse into its pipeline stages: the normalized
URL, the decoded scheme, the non-empty segment list, the extracted metadata
triple, and the final assembly. -/
theorem parse_ok_inversion {url : String} {g : GitUrl}
    (h : GitUrl.parse url = .ok g) :
    ∃ u scheme sp0 spRest owner org fullname,
      normalizeUrl url = .ok u ∧
      Scheme.fromStr u.scheme = .ok scheme ∧
      ¬(scheme = .ssh ∧ u.path = "") ∧
      rsplitTerm (urlpathOf scheme u) = sp0 :: spRest ∧
      GitUrl.extractMeta url scheme u.host sp0 spRest (trimEndGit sp0) =
        .inr (owner, org, fullname) ∧
      g = GitUrl.assemble url u scheme owner org (trimEndGit sp0) fullname := by
  unfold GitUrl.parse at h
  split at h
  · cases h
  · rename_i u hnorm
    split at h
    · cases h
    · rename_i scheme hscheme
      split at h
      · cases h
      · rename_i hcond
        split at h
        · cases h
        · rename_i sp0 spRest hsplit
          split at h
          · rename_i out hm
            exact absurd h (extractMeta_inl_not_ok hm)
          · rename_i owner org fullname hm
            rcases h with ⟨⟩
            refine ⟨u, scheme, sp0, spRest, owner, org, fullname,
              hnorm, hscheme, ?_, hsplit, hm, rfl⟩
            intro hc
            simp [hc.1, hc.2] at hcond

/-- Evaluation of `GitUrl::parse` once normalization and scheme decoding
are fixed and the `Ssh` empty-path panic is excluded. -/
theorem parse_eq_of_normalize {url : String} {u : Url} {scheme : Scheme}
    (hnorm : normalizeUrl url = .ok u)
    (hscheme : Scheme.fromStr u.scheme = .ok scheme)
    (hpath : scheme = .ssh → u.path ≠ "") :
    GitUrl.parse url =
      match rsplitTerm (urlpathOf scheme u) with
      | [] => .panicked
      | sp0 :: spRest =>
        match GitUrl.extractMeta url scheme u.host sp0 spRest (trimEndGit sp0) with
        | .inl out => out
        | .inr (owner, org, fullname) =>
          .ok (GitUrl.assemble url u scheme owner org (trimEndGit sp0) fullname) := by
  have hcond : ¬(scheme = .ssh ∧ u.path = "") := fun hc => hpath hc.1 hc.2
  unfold GitUrl.parse
  rw [hnorm]
  dsimp only
  rw [hscheme]
  dsimp only
  rw [if_neg (by simp only [Bool.and_eq_true, decide_eq_true_eq]; exact hcond)]

/-- For a non-File scheme and a host outside the allow-list, the extraction
reduces to the segment-count gate and the owner selection. -/
theorem extractMeta_plain {url : String} {scheme : Scheme} {hostStr : String}
    {sp0 name : String} {spRest : List String}
    (hnf : scheme ≠ .file) (hallow : allowHosts.contains hostStr = false) :
    GitUrl.extractMeta url scheme (some hostStr) sp0 spRest name =
      (if !strStarts url "ssh" && (sp0 :: spRest).length < 2 then
        .inl (.err .malformedGitUrl)
      else
        match spRest with
        | sp1 :: _ => .inr (some sp1, none, sp1 ++ "/" ++ name)
        | [] => .inr (some sp0, none, sp0 ++ "/" ++ name)) := by
  cases scheme <;> simp_all [GitUrl.extractMeta]

/-- The assembled host is the normalized host for every non-File scheme. -/
theorem assemble_host_nonfile (url : String) (u : Url) (scheme : Scheme)
    (owner org : Option String) (name fullname : String)
    (h : scheme ≠ Scheme.file) :
    (GitUrl.assemble url u scheme owner org name fullname).host = u.host := by
  cases scheme <;> first | rfl | exact absurd rfl h

/-- The assembled path is the computed url path for every non-File
scheme. -/
theorem assemble_path_nonfile (url : String) (u : Url) (scheme : Scheme)
    (owner org : Option String) (name fullname : String)
    (h : scheme ≠ Scheme.file) :
    (GitUrl.assemble url u scheme owner org name fullname).path =
      urlpathOf scheme u := by
  cases scheme <;> first | rfl | exact absurd rfl h

/-- The url path of a non-`Ssh` scheme is the canonical path. -/
theorem urlpathOf_nonssh {scheme : Scheme} (u : Url) (h : scheme ≠ Scheme.ssh) :
    urlpathOf scheme u = u.path := by
  unfold urlpathOf
  rw [if_neg h]

/-- The url path of the `Ssh` scheme drops the leading path character. -/
theorem urlpathOf_ssh (u : Url) : urlpathOf Scheme.ssh u = strDrop1 u.path := by
  unfold urlpathOf
  rw [if_pos rfl]

/-- Core of the re-parse argument for authority-form renderings
(`tok://host[:port]path`): the rendering of the credential-trimmed result
re-parses with the same scheme, host and extracted metadata. -/
theorem reparse_core_auth (url : String) (g : GitUrl) (u : Url) (scheme : Scheme)
    (sp0 : String) (spRest : List String) (owner org : Option String)
    (fullname : String) (hostStr : String)
    (hnorm : normalizeUrl url = .ok u)
    (hscheme : Scheme.fromStr u.scheme = .ok scheme)
    (hsplit : rsplitTerm (urlpathOf scheme u) = sp0 :: spRest)
    (hmeta : GitUrl.extractMeta url scheme u.host sp0 spRest (trimEndGit sp0) =
      .inr (owner, org, fullname))
    (hg : g = GitUrl.assemble url u scheme owner org (trimEndGit sp0) fullname)
    (hhost : u.host = some hostStr)
    (hpfx : g.scheme_pfx = true)
    (hlike : schemeLike u.scheme = true)
    (hfileNe : u.scheme ≠ "file")
    (hlowtok : u.scheme.data.map lowChar = u.scheme.data)
    (hnotfile : scheme ≠ .file)
    (hstreq : Scheme.str g.scheme = u.scheme)
    (hupath : displayPathPart g = u.path.data)
    (hpsne : chSuf ['/'] u.path.data = false)
    (hgate : u.scheme = "ssh" ∨ 2 ≤ (sp0 :: spRest).length) :
    ∃ g₂, GitUrl.parse (GitUrl.display (GitUrl.trim_auth g)) = .ok g₂ ∧
      g₂.scheme = scheme ∧ g₂.host = some hostStr ∧ g₂.owner = owner ∧
      g₂.organization = org ∧ g₂.name = trimEndGit sp0 := by
  have hwf := normalizeUrl_wf hnorm
  have hghost : g.host = u.host := by
    rw [hg]
    exact assemble_host_nonfile url u scheme owner org (trimEndGit sp0) fullname
      hnotfile
  have hgport : g.port = u.port := by
    rw [hg]
    rfl
  have hok := schemeLike_all hlike
  have hh := hwf.host_wf hostStr hhost
  have hpne2 : u.path ≠ "" := by
    intro he
    have hup0 : urlpathOf scheme u = "" := by
      unfold urlpathOf
      rw [he]
      split
      · rfl
      · rfl
    rw [hup0, rsplitTerm_empty] at hsplit
    cases hsplit
  have hpdne : u.path.data ≠ [] := fun hd =>
    hpne2 ((string_eta u.path).symm.trans (congrArg String.mk hd))
  have hpstart : chPre ['/'] u.path.data = true := by
    rcases hwf.path_slash hostStr hhost with he | hp
    · exact absurd he hpne2
    · exact hp
  have hport : (u.port = none ∧ displayPortPart u.port = []) ∨
      (∃ n, u.port = some n ∧ displayPortPart u.port = ':' :: natDigits n ∧
        n ≤ 65535 ∧
        (specialSchemes.contains u.scheme = true →
          defaultPort u.scheme ≠ some n)) := by
    rcases hup : u.port with _ | n
    · exact Or.inl ⟨rfl, rfl⟩
    · exact Or.inr ⟨n, rfl, rfl, hwf.port_le n hup, fun _ => hwf.port_nd n hup⟩
  have hsd : (GitUrl.display (GitUrl.trim_auth g)).data =
      u.scheme.data ++ ':' :: '/' :: '/' ::
        (hostStr.data ++ displayPortPart u.port ++ u.path.data) := by
    rw [display_trim_auth_data g hostStr (hghost.trans hhost), hpfx, hupath,
      hstreq, hgport]
    simp [List.append_assoc]
  have hp2 : Url.parse (GitUrl.display (GitUrl.trim_auth g)) =
      .ok ⟨u.scheme, "", none, some hostStr, u.port, u.path⟩ :=
    url_parse_eval_auth _ u.scheme hostStr u.path (displayPortPart u.port) u.port
      (specialSchemes.contains u.scheme) hsd rfl hfileNe (schemeLike_shape hlike)
      hok hlowtok hh.1 hh.2 (fun hsp => hwf.host_low hsp hostStr hhost) hport
      hpstart hwf.path_safe
  have hgt2 : ∀ d ∈ (GitUrl.display (GitUrl.trim_auth g)).data, 32 < d.toNat := by
    rw [hsd]
    intro d hd
    rcases List.mem_append.mp hd with hm | hm
    · exact schemeCharOk_gt32 (hok _ hm)
    · rcases List.mem_cons.mp hm with rfl | hm
      · decide
      rcases List.mem_cons.mp hm with rfl | hm
      · decide
      rcases List.mem_cons.mp hm with rfl | hm
      · decide
      rcases List.mem_append.mp hm with hm2 | hm2
      · rcases List.mem_append.mp hm2 with hm3 | hm3
        · exact (hostWfChar_unpack (hh.2 _ hm3)).1
        · rcases hport with ⟨-, hpl⟩ | ⟨n, -, hpl, -, -⟩
          · rw [hpl] at hm3
            cases hm3
          · rw [hpl] at hm3
            rcases List.mem_cons.mp hm3 with rfl | hm4
            · decide
            · have := natDigits_range _ hm4
              omega
      · exact (safePathChar_iff.mp (hwf.path_safe _ hm2)).1
  have hnull2 : hasNullByte (GitUrl.display (GitUrl.trim_auth g)) = false :=
    hasNullByte_false hgt2
  have hends2 : strEnds (GitUrl.display (GitUrl.trim_auth g)) "/" = false := by
    unfold strEnds
    rw [string_data_slash, hsd, chSuf_append_right (by simp),
      show (':' :: '/' :: '/' ::
          (hostStr.data ++ displayPortPart u.port ++ u.path.data)) =
        [':', '/', '/'] ++
          (hostStr.data ++ displayPortPart u.port ++ u.path.data) from rfl,
      chSuf_append_right (by simp [hpdne]), chSuf_append_right hpdne]
    exact hpsne
  have htrim2 : strTrimSlashes (GitUrl.display (GitUrl.trim_auth g)) =
      GitUrl.display (GitUrl.trim_auth g) := strTrimSlashes_eq_self hends2
  have hgit2 := gitcheck_eval (GitUrl.display (GitUrl.trim_auth g)) u.scheme
    (hostStr.data ++ displayPortPart u.port ++ u.path.data) hsd hok
  have hnorm2 : normalizeUrl (GitUrl.display (GitUrl.trim_auth g)) =
      .ok ⟨u.scheme, "", none, some hostStr, u.port, u.path⟩ :=
    normalizeUrlF_ok_of_parse 1 hnull2 htrim2 hgit2 hp2 hscheme
  have hupeq : urlpathOf scheme
      (⟨u.scheme, "", none, some hostStr, u.port, u.path⟩ : Url) =
      urlpathOf scheme u := rfl
  have hssh2 : scheme = .ssh →
      (⟨u.scheme, "", none, some hostStr, u.port, u.path⟩ : Url).path ≠ "" :=
    fun _ => hpne2
  have hmeta2 : GitUrl.extractMeta (GitUrl.display (GitUrl.trim_auth g)) scheme
      (some hostStr) sp0 spRest (trimEndGit sp0) = .inr (owner, org, fullname) := by
    rw [hhost] at hmeta
    refine extractMeta_switch_url hmeta ?_
    rcases hgate with hus | hlen
    · refine Or.inl ?_
      unfold strStarts
      rw [hsd, hus]
      exact chPre_append _ _
    · exact Or.inr hlen
  rw [parse_eq_of_normalize hnorm2 hscheme hssh2, hupeq, hsplit]
  dsimp only
  rw [hmeta2]
  dsimp only
  refine ⟨_, rfl, rfl, ?_, rfl, rfl, rfl⟩
  exact assemble_host_nonfile _ _ scheme owner org (trimEndGit sp0) fullname
    hnotfile

/-- Characters of the `ssh://` rewrite prefix. -/
theorem string_data_sshsep : ("ssh://" : String).data =
    ['s', 's', 'h', ':', '/', '/'] := rfl

/-- Characters of the `ssh` token. -/
theorem string_data_ssh : ("ssh" : String).data = ['s', 's', 'h'] := rfl

/-- Core of the re-parse argument for port-less SSH-shorthand renderings
(`host:path`): the rendering of the credential-trimmed result re-parses —
through the opaque parse, the failed scheme decode and the `ssh://` rewrite
— with the same scheme, host and extracted metadata. -/
theorem reparse_core_opaque (url : String) (g : GitUrl) (u : Url)
    (sp0 : String) (spRest : List String) (owner org : Option String)
    (fullname : String) (hostStr : String)
    (hnorm : normalizeUrl url = .ok u)
    (hscheme : Scheme.fromStr u.scheme = .ok .ssh)
    (hsplit : rsplitTerm (urlpathOf .ssh u) = sp0 :: spRest)
    (hmeta : GitUrl.extractMeta url .ssh u.host sp0 spRest (trimEndGit sp0) =
      .inr (owner, org, fullname))
    (hg : g = GitUrl.assemble url u .ssh owner org (trimEndGit sp0) fullname)
    (hhost : u.host = some hostStr)
    (hpfx : g.scheme_pfx = false)
    (hpn : g.port = none)
    (hlike : schemeLike hostStr = true)
    (hnotok : lowStr hostStr ∉ schemeTokens)
    (hnsp : specialSchemes.contains (lowStr hostStr) = false)
    (hcol : ':' ∉ g.path.data)
    (hnos : chPre ['/'] g.path.data = false)
    (hlen : 2 ≤ (sp0 :: spRest).length)
    (hpsne : chSuf ['/'] g.path.data = false) :
    ∃ g₂, GitUrl.parse (GitUrl.display (GitUrl.trim_auth g)) = .ok g₂ ∧
      g₂.scheme = Scheme.ssh ∧ g₂.host = some hostStr ∧ g₂.owner = owner ∧
      g₂.organization = org ∧ g₂.name = trimEndGit sp0 := by
  have hwf := normalizeUrl_wf hnorm
  have hue : u.scheme = "ssh" := fromStr_ok_eq hscheme
  have hcsp : specialSchemes.contains u.scheme = false := by
    rw [hue]
    decide
  have hghost : g.host = u.host := by
    rw [hg]
    rfl
  have hgport : g.port = u.port := by
    rw [hg]
    rfl
  have hgsch : g.scheme = Scheme.ssh := by
    rw [hg]
    rfl
  have hgpath : g.path = strDrop1 u.path := by
    rw [hg, assemble_path_nonfile url u .ssh owner org (trimEndGit sp0) fullname
      (by decide), urlpathOf_ssh]
  have hpne2 : u.path ≠ "" := by
    intro he
    have hup0 : urlpathOf Scheme.ssh u = "" := by
      rw [urlpathOf_ssh, he]
      rfl
    rw [hup0, rsplitTerm_empty] at hsplit
    cases hsplit
  have hpstart : chPre ['/'] u.path.data = true := by
    rcases hwf.path_slash hostStr hhost with he | hp
    · exact absurd he hpne2
    · exact hp
  have hupd : u.path.data = '/' :: g.path.data := by
    obtain ⟨pt, hpt⟩ := chPre_single_iff.mp hpstart
    have hgp : g.path.data = pt := by
      rw [hgpath]
      unfold strDrop1
      rw [string_data_mk, hpt]
      rfl
    rw [hpt, hgp]
  have hokC := schemeLike_all hlike
  have hh := hwf.host_wf hostStr hhost
  have hh2f : ∀ c ∈ hostStr.data, hostWfChar false c = true := by
    intro c hc
    have := hh.2 c hc
    rwa [hcsp] at this
  have hsafeC : ∀ c ∈ g.path.data, safePathChar false c = true := by
    intro c hc
    have := hwf.path_safe c (by rw [hupd]; exact List.mem_cons.mpr (Or.inr hc))
    rwa [hcsp] at this
  have hsplitG : rsplitTerm g.path = sp0 :: spRest := by
    rw [hgpath, ← urlpathOf_ssh]
    exact hsplit
  have hgpne : g.path ≠ "" := by
    intro he
    rw [he, rsplitTerm_empty] at hsplitG
    cases hsplitG
  have hgpdne : g.path.data ≠ [] := fun hd =>
    hgpne ((string_eta g.path).symm.trans (congrArg String.mk hd))
  have hsd : (GitUrl.display (GitUrl.trim_auth g)).data =
      hostStr.data ++ ':' :: g.path.data := by
    have hpp : displayPathPart g = ':' :: g.path.data := by
      unfold displayPathPart
      rw [hgsch]
      simp [hpn]
    rw [display_trim_auth_data g hostStr (hghost.trans hhost), hpfx, hpn, hpp,
      show displayPortPart none = [] from rfl]
    simp
  have hfileC : lowStr hostStr ≠ "file" := fun he => hnotok (by rw [he]; decide)
  have hp2 : Url.parse (GitUrl.display (GitUrl.trim_auth g)) =
      .ok ⟨lowStr hostStr, "", none, none, none, g.path⟩ :=
    url_parse_eval_opaque _ hostStr g.path hsd hlike hfileC hnsp hnos hsafeC
  have hgt2 : ∀ d ∈ (GitUrl.display (GitUrl.trim_auth g)).data, 32 < d.toNat := by
    rw [hsd]
    intro d hd
    rcases List.mem_append.mp hd with hm | hm
    · exact schemeCharOk_gt32 (hokC _ hm)
    · rcases List.mem_cons.mp hm with rfl | hm2
      · decide
      · exact (safePathChar_iff.mp (hsafeC _ hm2)).1
  have hnull2 := hasNullByte_false hgt2
  have hends2 : strEnds (GitUrl.display (GitUrl.trim_auth g)) "/" = false := by
    unfold strEnds
    rw [string_data_slash, hsd, chSuf_append_right (by simp),
      show (':' :: g.path.data) = [':'] ++ g.path.data from rfl,
      chSuf_append_right hgpdne]
    exact hpsne
  have htrim2 := strTrimSlashes_eq_self hends2
  have hng : hostStr.data ≠ ['g', 'i', 't'] := by
    intro he
    exact hnotok (by unfold lowStr; rw [he]; decide)
  have hgit2 := gitcheck_opaque _ hostStr g.path hsd hokC hng
  have hcolH : ':' ∉ hostStr.data := fun hm =>
    schemeCharOk_ne_colon (hokC _ hm) rfl
  have hsplitc : splitColon (GitUrl.display (GitUrl.trim_auth g)) =
      [hostStr, g.path] := by
    unfold splitColon
    rw [hsd, chSplit_append_sep hcolH hcol]
    simp [string_eta]
  have hs3d : ("ssh://" ++ hostStr ++ "/" ++ g.path).data =
      ("ssh" : String).data ++ ':' :: '/' :: '/' ::
        (hostStr.data ++ [] ++ (String.mk ('/' :: g.path.data)).data) := by
    simp [String.data_append, string_data_mk, string_data_sshsep,
      string_data_ssh, string_data_slash]
  have hp3 : Url.parse ("ssh://" ++ hostStr ++ "/" ++ g.path) =
      .ok ⟨"ssh", "", none, some hostStr, none,
        String.mk ('/' :: g.path.data)⟩ :=
    url_parse_eval_auth _ "ssh" hostStr (String.mk ('/' :: g.path.data)) [] none
      false hs3d (by decide) (by decide) ⟨'s', ['s', 'h'], rfl, by decide⟩
      (by decide) (by decide) hh.1 hh2f (fun h => absurd h (by decide))
      (Or.inl ⟨rfl, rfl⟩) (by simp [chPre, string_data_mk])
      (by
        intro c hc
        rw [string_data_mk] at hc
        rcases List.mem_cons.mp hc with rfl | hc2
        · decide
        · exact hsafeC _ hc2)
  have hgt3 : ∀ d ∈ ("ssh://" ++ hostStr ++ "/" ++ g.path).data, 32 < d.toNat := by
    rw [hs3d]
    intro d hd
    rcases List.mem_append.mp hd with hm | hm
    · exact (by decide : ∀ x ∈ ("ssh" : String).data, 32 < x.toNat) d hm
    · rcases List.mem_cons.mp hm with rfl | hm
      · decide
      rcases List.mem_cons.mp hm with rfl | hm
      · decide
      rcases List.mem_cons.mp hm with rfl | hm
      · decide
      rcases List.mem_append.mp hm with hm2 | hm2
      · rcases List.mem_append.mp hm2 with hm3 | hm3
        · exact (hostWfChar_unpack (hh2f _ hm3)).1
        · cases hm3
      · rw [string_data_mk] at hm2
        rcases List.mem_cons.mp hm2 with rfl | hm3
        · decide
        · exact (safePathChar_iff.mp (hsafeC _ hm3)).1
  have hnull3 := hasNullByte_false hgt3
  have hends3 : strEnds ("ssh://" ++ hostStr ++ "/" ++ g.path) "/" = false := by
    unfold strEnds
    rw [string_data_slash, String.data_append, chSuf_append_right hgpdne]
    exact hpsne
  have htrim3 := strTrimSlashes_eq_self hends3
  have hgit3 := gitcheck_eval ("ssh://" ++ hostStr ++ "/" ++ g.path) "ssh"
    (hostStr.data ++ [] ++ (String.mk ('/' :: g.path.data)).data) hs3d (by decide)
  have hinner : normalizeUrlF 1 ("ssh://" ++ hostStr ++ "/" ++ g.path) =
      .ok ⟨"ssh", "", none, some hostStr, none,
        String.mk ('/' :: g.path.data)⟩ :=
    normalizeUrlF_ok_of_parse 0 hnull3 htrim3 hgit3 hp3
      (show Scheme.fromStr "ssh" = .ok Scheme.ssh by decide)
  have hnorm2 : normalizeUrl (GitUrl.display (GitUrl.trim_auth g)) =
      .ok ⟨"ssh", "", none, some hostStr, none,
        String.mk ('/' :: g.path.data)⟩ := by
    show normalizeUrlF 2 (GitUrl.display (GitUrl.trim_auth g)) = _
    rw [show (2 : Nat) = 1 + 1 from rfl, normalizeUrlF,
      if_neg (by rw [hnull2]; simp)]
    dsimp only
    rw [htrim2, hgit2, if_neg (by simp), hp2]
    dsimp only
    rw [fromStr_not_token hnotok]
    dsimp only
    rw [hsplitc]
    dsimp only
    exact hinner
  have hscheme3 : Scheme.fromStr
      (⟨"ssh", "", none, some hostStr, none,
        String.mk ('/' :: g.path.data)⟩ : Url).scheme = .ok Scheme.ssh :=
    show Scheme.fromStr "ssh" = .ok Scheme.ssh by decide
  have hssh3 : Scheme.ssh = Scheme.ssh →
      (⟨"ssh", "", none, some hostStr, none,
        String.mk ('/' :: g.path.data)⟩ : Url).path ≠ "" := by
    intro _ he
    have hdd := congrArg String.data he
    rw [string_data_mk, string_data_empty] at hdd
    cases hdd
  have hupOf : urlpathOf Scheme.ssh
      (⟨"ssh", "", none, some hostStr, none,
        String.mk ('/' :: g.path.data)⟩ : Url) = g.path := by
    rw [urlpathOf_ssh]
    unfold strDrop1
    rw [string_data_mk]
    exact string_eta g.path
  have hmeta2 : GitUrl.extractMeta (GitUrl.display (GitUrl.trim_auth g))
      Scheme.ssh (some hostStr) sp0 spRest (trimEndGit sp0) =
      .inr (owner, org, fullname) := by
    rw [hhost] at hmeta
    exact extractMeta_switch_url hmeta (Or.inr hlen)
  rw [parse_eq_of_normalize hnorm2 hscheme3 hssh3, hupOf, hsplitG]
  dsimp only
  rw [hmeta2]
  dsimp only
  exact ⟨_, rfl, rfl, rfl, rfl, rfl, rfl⟩

/-! ## Claim theorems -/

/-- C10: every scheme's canonical token decodes back to it, and every token
outside the nine canonical lowercase tokens fails to decode with an
`UnsupportedScheme` error carrying that token. -/
theorem scheme_codec_round_trip :
    (∀ s : Scheme, Scheme.fromStr s.str = .ok s) ∧
    (∀ t : String, t ∉ schemeTokens →
      Scheme.fromStr t = .error (.unsupportedScheme t)) := by
  constructor
  · intro s
    cases s <;> rfl
  · intro t ht
    simp only [schemeTokens, List.mem_cons, List.not_mem_nil, or_false, not_or] at ht
    obtain ⟨h1, h2, h3, h4, h5, h6, h7, h8, h9⟩ := ht
    simp [Scheme.fromStr, h1, h2, h3, h4, h5, h6, h7, h8, h9]

/-- Witness for C10: the round trip at `ssh` and the failure at the token
`sftp`, which is outside the canonical set. -/
theorem scheme_codec_round_trip_witness :
    Scheme.fromStr (Scheme.str .ssh) = .ok .ssh ∧
    Scheme.fromStr "sftp" = .error (.unsupportedScheme "sftp") :=
  ⟨scheme_codec_round_trip.1 .ssh,
    scheme_codec_round_trip.2 "sftp" (by decide)⟩

/-- C7: `trim_auth` clears `user` and `token` and leaves every other field
of the (immutable) aggregate unchanged. -/
theorem trim_auth_clears_only_credentials (g : GitUrl) :
    g.trim_auth.user = none ∧ g.trim_auth.token = none ∧
    g.trim_auth.host = g.host ∧ g.trim_auth.name = g.name ∧
    g.trim_auth.owner = g.owner ∧ g.trim_auth.organization = g.organization ∧
    g.trim_auth.fullname = g.fullname ∧ g.trim_auth.scheme = g.scheme ∧
    g.trim_auth.port = g.port ∧ g.trim_auth.path = g.path ∧
    g.trim_auth.git_suffix = g.git_suffix ∧
    g.trim_auth.scheme_pfx = g.scheme_pfx :=
  ⟨rfl, rfl, rfl, rfl, rfl, rfl, rfl, rfl, rfl, rfl, rfl, rfl⟩

/-- C5: the README SSH shorthand example parses to exactly the claimed
metadata. -/
theorem readme_ssh_example :
    GitUrl.parse "git@github.com:tjtelan/git-url-parse-rs.git" =
      .ok
        { host := some "github.com"
          name := "git-url-parse-rs"
          owner := some "tjtelan"
          organization := none
          fullname := "tjtelan/git-url-parse-rs"
          scheme := .ssh
          user := some "git"
          token := none
          port := none
          path := "tjtelan/git-url-parse-rs.git"
          git_suffix := true
          scheme_pfx := false } := by
  decide

/-- C3 (code bug): on the input `ssh://host` the generic parser accepts the
URL with scheme token `ssh` and an empty canonical path, which does not
begin with `/`; the slice `path()[1..]` in `GitUrl::parse` is therefore out
of range and the function panics instead of dropping a separator. -/
theorem ssh_path_slice_panics :
    normalizeUrl "ssh://host" =
      .ok ⟨"ssh", "", none, some "host", none, ""⟩ ∧
    strStarts "" "/" = false ∧
    GitUrl.parse "ssh://host" = .panicked := by
  refine ⟨by decide, rfl, by decide⟩

/-- C4 (code bug): `GitUrl::parse` does not always return a `Result`: on
`git://example.com` the canonical path is empty, the right-to-left segment
list is empty, and the indexing `splitpath[0]` panics. -/
theorem empty_segment_list_panics :
    GitUrl.parse "git://example.com" = .panicked ∧
    rsplitTerm "" = [] := by
  exact ⟨by decide, rfl⟩

/-- C8: a null byte anywhere in the input makes `normalize_url` fail with
`NullBytes`, and `GitUrl::parse` on the same input fails with a
`NormalizeUrl` error wrapping `NullBytes`; no partial result is produced. -/
theorem null_byte_rejected (s : String) (h : '\x00' ∈ s.data) :
    normalizeUrl s = .error .nullBytes ∧
    GitUrl.parse s = .err (.normalizeUrl .nullBytes) := by
  have hn : hasNullByte s = true := contains_of_mem h
  have h1 : normalizeUrl s = .error .nullBytes := by
    rw [normalizeUrl]
    exact normalizeUrlF_nullBytes 1 s hn
  exact ⟨h1, by rw [GitUrl.parse, h1]⟩

/-- Witness for C8 at a concrete input containing a null byte. -/
theorem null_byte_rejected_witness :
    '\x00' ∈ ("git@host:a" ++ "\x00" ++ "b.git").data ∧
    normalizeUrl ("git@host:a" ++ "\x00" ++ "b.git") = .error .nullBytes ∧
    GitUrl.parse ("git@host:a" ++ "\x00" ++ "b.git") =
      .err (.normalizeUrl .nullBytes) := by
  refine ⟨by decide, ?_⟩
  exact null_byte_rejected ("git@host:a" ++ "\x00" ++ "b.git") (by decide)

/-- C9: `normalize_ssh_url` splits its input on `:`; exactly 2 parts
normalize the `ssh://host/path` rewrite, exactly 3 parts normalize the
`ssh://host:port/path` rewrite, and any other split count fails with
`UnsupportedSshPattern` carrying the original text. -/
theorem normalize_ssh_url_splits (s : String) :
    normalizeSshUrl s =
      match splitColon s with
      | [a, b] => normalizeUrl ("ssh://" ++ a ++ "/" ++ b)
      | [a, b, c] => normalizeUrl ("ssh://" ++ a ++ ":" ++ b ++ "/" ++ c)
      | _ => .error (.unsupportedSshPattern s) := by
  rfl

/-- C1 (amended): when parsing succeeds, stripping trailing `.git`
repetitions from the final `/`-component of `fullname` always recovers
`name`, and the final component equals `name` itself whenever the host is
not on the organization allow-list (which covers the File scheme, whose
result has no host); `name` itself may be empty. -/
theorem fullname_last_component_amended (url : String) (g : GitUrl)
    (h : GitUrl.parse url = .ok g) :
    trimEndGit (lastComp g.fullname) = g.name ∧
    ((∀ hs, g.host = some hs → allowHosts.contains hs = false) →
      lastComp g.fullname = g.name) := by
  obtain ⟨u, scheme, sp0, spRest, owner, org, fullname, hnorm, hscheme, hcond,
    hsplit, hmeta, hg⟩ := parse_ok_inversion h
  subst hg
  have hmem0 : sp0 ∈ rsplitTerm (urlpathOf scheme u) := by
    rw [hsplit]
    exact List.mem_cons_self _ _
  have hfree0 : '/' ∉ sp0.data := no_slash_of_mem_rsplitTerm hmem0
  have hfreeName : '/' ∉ (trimEndGit sp0).data := no_slash_trimEndGit hfree0
  rcases extractMeta_inr hmeta with
    ⟨hfile, rfl, rfl, rfl⟩ |
    ⟨hostStr, hnf, hhost, hallow, hbranch⟩ |
    ⟨hostStr, hnf, hhost, hallow, rfl, hbranch⟩
  · simp only [GitUrl.assemble, hfile]
    rw [lastComp_eq_self hfreeName]
    exact ⟨trimEndGit_idem sp0, fun _ => rfl⟩
  · have hhostg :
        (GitUrl.assemble url u scheme owner org (trimEndGit sp0) fullname).host =
          some hostStr := by
      simp only [GitUrl.assemble]
      cases scheme <;> simp_all
    rcases hbranch with ⟨sp1, sp2, rest, hs, hrest, rfl, rfl, rfl⟩ |
      ⟨sp1, sp2, sp3, rest, hs, hrest, rfl, rfl, rfl⟩
    · have hlc : lastComp (sp2 ++ "/" ++ sp1 ++ "/" ++ sp0) = sp0 := by
        rw [lastComp_eq_of_split _ (sp2.data ++ '/' :: sp1.data) sp0.data
          (by simp [String.data_append]) hfree0]
      constructor
      · simp only [GitUrl.assemble, hlc]
      · intro himp
        have := himp hostStr hhostg
        rw [this] at hallow
        cases hallow
    · have hlc : lastComp (sp3 ++ "/" ++ sp2 ++ "/" ++ sp0) = sp0 := by
        rw [lastComp_eq_of_split _ (sp3.data ++ '/' :: sp2.data) sp0.data
          (by simp [String.data_append]) hfree0]
      constructor
      · simp only [GitUrl.assemble, hlc]
      · intro himp
        have := himp hostStr hhostg
        rw [this] at hallow
        cases hallow
  · rcases hbranch with ⟨sp1, rest, hrest, rfl, rfl⟩ | ⟨hrest, hssh, rfl, rfl⟩
    · have hlc : lastComp (sp1 ++ "/" ++ trimEndGit sp0) = trimEndGit sp0 := by
        rw [lastComp_eq_of_split _ sp1.data (trimEndGit sp0).data
          (by simp [String.data_append]) hfreeName]
      simp only [GitUrl.assemble, hlc]
      exact ⟨trimEndGit_idem sp0, fun _ => trivial⟩
    · have hlc : lastComp (sp0 ++ "/" ++ trimEndGit sp0) = trimEndGit sp0 := by
        rw [lastComp_eq_of_split _ sp0.data (trimEndGit sp0).data
          (by simp [String.data_append]) hfreeName]
      simp only [GitUrl.assemble, hlc]
      exact ⟨trimEndGit_idem sp0, fun _ => trivial⟩

/-- Witness for C1 (amended) at the concrete input
`https://github.com/tjtelan/git-url-parse-rs`. -/
theorem fullname_last_component_amended_witness :
    trimEndGit (lastComp (GitUrl.mk (some "github.com") "git-url-parse-rs"
        (some "tjtelan") none "tjtelan/git-url-parse-rs" .https none none none
        "/tjtelan/git-url-parse-rs" false true).fullname) =
      (GitUrl.mk (some "github.com") "git-url-parse-rs"
        (some "tjtelan") none "tjtelan/git-url-parse-rs" .https none none none
        "/tjtelan/git-url-parse-rs" false true).name ∧
    ((∀ hs, (GitUrl.mk (some "github.com") "git-url-parse-rs"
        (some "tjtelan") none "tjtelan/git-url-parse-rs" .https none none none
        "/tjtelan/git-url-parse-rs" false true).host = some hs →
        allowHosts.contains hs = false) →
      lastComp (GitUrl.mk (some "github.com") "git-url-parse-rs"
        (some "tjtelan") none "tjtelan/git-url-parse-rs" .https none none none
        "/tjtelan/git-url-parse-rs" false true).fullname =
        (GitUrl.mk (some "github.com") "git-url-parse-rs"
          (some "tjtelan") none "tjtelan/git-url-parse-rs" .https none none none
          "/tjtelan/git-url-parse-rs" false true).name) :=
  fullname_last_component_amended "https://github.com/tjtelan/git-url-parse-rs"
    _ (by decide)

/-- C1 (counterexample): on the allow-listed host `dev.azure.com` with a
trailing `.git`, parsing succeeds but the final `/`-component of `fullname`
is `Repo.git`, not `name` (`Repo`); and on `https://host/a/.git` parsing
succeeds with an empty `name`. -/
theorem fullname_invariant_counterexample :
    GitUrl.parse "https://dev.azure.com/Org/Proj/_git/Repo.git" =
      .ok ⟨some "dev.azure.com", "Repo", some "Proj", some "Org",
        "Org/Proj/Repo.git", .https, none, none, none,
        "/Org/Proj/_git/Repo.git", true, true⟩ ∧
    lastComp "Org/Proj/Repo.git" = "Repo.git" ∧
    GitUrl.parse "https://host/a/.git" =
      .ok ⟨some "host", "", some "a", none, "a/", .https, none, none, none,
        "/a/.git", true, true⟩ := by
  refine ⟨by decide, by decide, by decide⟩

/-- C2 (amended): for a successfully normalized non-File URL whose host is
not allow-listed, with the segment list computed by `rsplit_terminator`
(which keeps interior and leading empty segments): an empty segment list
panics (before the gate); a single segment without an `ssh`-prefixed raw
input fails with `MalformedGitUrl`; at least two segments succeed with the
segment at right-to-left index 1 as owner; a single segment with an
`ssh`-prefixed raw input succeeds with that segment as owner. -/
theorem owner_extraction_amended (url : String) (u : Url) (hostStr : String)
    (scheme : Scheme)
    (hnorm : normalizeUrl url = .ok u)
    (hscheme : Scheme.fromStr u.scheme = .ok scheme)
    (hnf : scheme ≠ .file)
    (hhost : u.host = some hostStr)
    (hallow : allowHosts.contains hostStr = false)
    (hpath : scheme = .ssh → u.path ≠ "") :
    (rsplitTerm (urlpathOf scheme u) = [] → GitUrl.parse url = .panicked) ∧
    (∀ sp0, rsplitTerm (urlpathOf scheme u) = [sp0] →
      strStarts url "ssh" = false →
      GitUrl.parse url = .err .malformedGitUrl) ∧
    (∀ sp0 sp1 rest, rsplitTerm (urlpathOf scheme u) = sp0 :: sp1 :: rest →
      ∃ g, GitUrl.parse url = .ok g ∧ g.owner = some sp1 ∧
        g.name = trimEndGit sp0 ∧ g.fullname = sp1 ++ "/" ++ trimEndGit sp0) ∧
    (∀ sp0, rsplitTerm (urlpathOf scheme u) = [sp0] →
      strStarts url "ssh" = true →
      ∃ g, GitUrl.parse url = .ok g ∧ g.owner = some sp0 ∧
        g.name = trimEndGit sp0 ∧ g.fullname = sp0 ++ "/" ++ trimEndGit sp0) := by
  have hparse := parse_eq_of_normalize hnorm hscheme hpath
  refine ⟨?_, ?_, ?_, ?_⟩
  · intro hsp
    rw [hparse, hsp]
  · intro sp0 hsp hssh
    rw [hparse, hsp]
    dsimp only
    rw [hhost, extractMeta_plain hnf hallow]
    simp [hssh]
  · intro sp0 sp1 rest hsp
    rw [hparse, hsp]
    dsimp only
    rw [hhost, extractMeta_plain hnf hallow]
    have hgate :
        (!strStarts url "ssh" && decide ((sp0 :: sp1 :: rest).length < 2)) = false := by
      simp only [List.length_cons]
      cases strStarts url "ssh" <;> simp
    rw [hgate]
    exact ⟨_, rfl, rfl, rfl, rfl⟩
  · intro sp0 hsp hssh
    rw [hparse, hsp]
    dsimp only
    rw [hhost, extractMeta_plain hnf hallow]
    rw [hssh]
    simp only [Bool.not_true, Bool.false_and, Bool.false_eq_true, if_false]
    exact ⟨_, rfl, rfl, rfl, rfl⟩

/-- Witness for C2 (amended) at the concrete input
`https://github.com/a/b`, whose segment list is `["b", "a", ""]`. -/
theorem owner_extraction_amended_witness :
    ∃ g, GitUrl.parse "https://github.com/a/b" = .ok g ∧
      g.owner = some "a" ∧ g.name = trimEndGit "b" ∧
      g.fullname = "a" ++ "/" ++ trimEndGit "b" :=
  (owner_extraction_amended "https://github.com/a/b"
      ⟨"https", "", none, some "github.com", none, "/a/b"⟩ "github.com" .https
      (by decide) (by decide) (by decide) (by decide) (by decide)
      (by decide)).2.2.1 "b" "a" [""] (by decide)

/-- C2 (counterexample): the single-segment shorthand `git@host:repo.git`
does not begin with `ssh`, so `GitUrl::parse` fails with `MalformedGitUrl`
instead of succeeding with the single segment as owner. -/
theorem single_segment_shorthand_counterexample :
    GitUrl.parse "git@host:repo.git" = .err .malformedGitUrl ∧
    strStarts "git@host:repo.git" "ssh" = false := by
  refine ⟨by decide, by decide⟩

/-- C6 (amended): re-parsing the rendering of a successfully parsed,
credential-trimmed result preserves scheme, host, owner, organization and
name for (A) scheme-prefixed non-`Ssh`, non-`File` results with at least
two path segments, (B) scheme-prefixed `Ssh` results with a port, and
(C) port-less SSH-shorthand results whose host re-parses as a scheme-like
token outside the scheme and special-scheme tables and whose path is
colon-free, not slash-led, and has at least two segments — in every case
provided the stored path does not end in `/`. -/
theorem trim_auth_reparse_amended (url : String) (g : GitUrl)
    (hparse : GitUrl.parse url = .ok g)
    (hslash : strEnds g.path "/" = false)
    (hclass :
      (g.scheme_pfx = true ∧
        g.scheme ∈ [Scheme.http, .https, .ftp, .ftps, .git, .gitSsh,
          .unspecified] ∧
        2 ≤ (rsplitTerm g.path).length) ∨
      (g.scheme_pfx = true ∧ g.scheme = .ssh ∧ g.port.isSome = true) ∨
      (g.scheme_pfx = false ∧ g.scheme = .ssh ∧ g.port = none ∧
        (∀ hs, g.host = some hs → schemeLike hs = true ∧
          lowStr hs ∉ schemeTokens ∧
          specialSchemes.contains (lowStr hs) = false) ∧
        ':' ∉ g.path.data ∧ chPre ['/'] g.path.data = false ∧
        2 ≤ (rsplitTerm g.path).length)) :
    ∃ g₂, GitUrl.parse (GitUrl.display (GitUrl.trim_auth g)) = .ok g₂ ∧
      g₂.scheme = g.scheme ∧ g₂.host = g.host ∧ g₂.owner = g.owner ∧
      g₂.organization = g.organization ∧ g₂.name = g.name := by
  obtain ⟨u, scheme, sp0, spRest, owner, org, fullname, hnorm, hscheme, hnossh,
    hsplit, hmeta, hg⟩ := parse_ok_inversion hparse
  have htokeq : u.scheme = Scheme.str scheme := fromStr_ok_eq hscheme
  have hgsch : g.scheme = scheme := by
    rw [hg]
    rfl
  have hgowner : g.owner = owner := by
    rw [hg]
    rfl
  have hgorg : g.organization = org := by
    rw [hg]
    rfl
  have hgname : g.name = trimEndGit sp0 := by
    rw [hg]
    rfl
  rcases hclass with ⟨hpfx, hmem, hlen⟩ | ⟨hpfx, hssh, hps⟩ |
    ⟨hpfx, hssh, hpn, hhostc, hcol, hnos, hlen⟩
  · have hmem' : scheme ∈ [Scheme.http, .https, .ftp, .ftps, .git, .gitSsh,
        .unspecified] := hgsch ▸ hmem
    have hnssh : scheme ≠ Scheme.ssh := by
      simp only [List.mem_cons, List.not_mem_nil, or_false] at hmem'
      rcases hmem' with rfl | rfl | rfl | rfl | rfl | rfl | rfl <;> decide
    have hnf : scheme ≠ Scheme.file := by
      simp only [List.mem_cons, List.not_mem_nil, or_false] at hmem'
      rcases hmem' with rfl | rfl | rfl | rfl | rfl | rfl | rfl <;> decide
    have hlike2 : schemeLike u.scheme = true := by
      rw [htokeq]
      simp only [List.mem_cons, List.not_mem_nil, or_false] at hmem'
      rcases hmem' with rfl | rfl | rfl | rfl | rfl | rfl | rfl <;> decide
    have hfileNe : u.scheme ≠ "file" := by
      rw [htokeq]
      simp only [List.mem_cons, List.not_mem_nil, or_false] at hmem'
      rcases hmem' with rfl | rfl | rfl | rfl | rfl | rfl | rfl <;> decide
    have hlowtok : u.scheme.data.map lowChar = u.scheme.data := by
      rw [htokeq]
      simp only [List.mem_cons, List.not_mem_nil, or_false] at hmem'
      rcases hmem' with rfl | rfl | rfl | rfl | rfl | rfl | rfl <;> decide
    obtain ⟨hostStr, hhost⟩ : ∃ hs, u.host = some hs := by
      rcases extractMeta_inr hmeta with ⟨hf, -⟩ | ⟨hs, -, hh, -⟩ | ⟨hs, -, hh, -⟩
      · exact absurd hf hnf
      · exact ⟨hs, hh⟩
      · exact ⟨hs, hh⟩
    have hghost : g.host = u.host := by
      rw [hg]
      exact assemble_host_nonfile url u scheme owner org (trimEndGit sp0)
        fullname hnf
    have hgpath : g.path = u.path := by
      rw [hg, assemble_path_nonfile url u scheme owner org (trimEndGit sp0)
        fullname hnf, urlpathOf_nonssh u hnssh]
    have hstreq : Scheme.str g.scheme = u.scheme := by
      rw [hgsch, htokeq]
    have hupath : displayPathPart g = u.path.data := by
      unfold displayPathPart
      rw [hgsch, ← hgpath]
      simp only [List.mem_cons, List.not_mem_nil, or_false] at hmem'
      rcases hmem' with rfl | rfl | rfl | rfl | rfl | rfl | rfl <;> rfl
    have hpsne2 : chSuf ['/'] u.path.data = false := by
      have h2 := hslash
      unfold strEnds at h2
      rw [string_data_slash, hgpath] at h2
      exact h2
    have hgate : u.scheme = "ssh" ∨ 2 ≤ (sp0 :: spRest).length := by
      refine Or.inr ?_
      have hsg : rsplitTerm g.path = sp0 :: spRest := by
        rw [hgpath, ← urlpathOf_nonssh u hnssh]
        exact hsplit
      rw [hsg] at hlen
      exact hlen
    obtain ⟨g₂, hok2, h1, h2, h3, h4, h5⟩ := reparse_core_auth url g u scheme
      sp0 spRest owner org fullname hostStr hnorm hscheme hsplit hmeta hg hhost
      hpfx hlike2 hfileNe hlowtok hnf hstreq hupath hpsne2 hgate
    exact ⟨g₂, hok2, h1.trans hgsch.symm, h2.trans (hghost.trans hhost).symm,
      h3.trans hgowner.symm, h4.trans hgorg.symm, h5.trans hgname.symm⟩
  · have hse : scheme = Scheme.ssh := hgsch ▸ hssh
    subst hse
    have hlike2 : schemeLike u.scheme = true := by
      rw [htokeq]
      decide
    have hfileNe : u.scheme ≠ "file" := by
      rw [htokeq]
      decide
    have hlowtok : u.scheme.data.map lowChar = u.scheme.data := by
      rw [htokeq]
      decide
    obtain ⟨hostStr, hhost⟩ : ∃ hs, u.host = some hs := by
      rcases extractMeta_inr hmeta with ⟨hf, -⟩ | ⟨hs, -, hh, -⟩ | ⟨hs, -, hh, -⟩
      · exact absurd hf (by decide)
      · exact ⟨hs, hh⟩
      · exact ⟨hs, hh⟩
    have hghost : g.host = u.host := by
      rw [hg]
      rfl
    have hupne : u.path ≠ "" := fun he => hnossh ⟨rfl, he⟩
    have hgpath : g.path = strDrop1 u.path := by
      rw [hg, assemble_path_nonfile url u .ssh owner org (trimEndGit sp0)
        fullname (by decide), urlpathOf_ssh]
    have hwf := normalizeUrl_wf hnorm
    have hpstart : chPre ['/'] u.path.data = true := by
      rcases hwf.path_slash hostStr hhost with he | hp
      · exact absurd he hupne
      · exact hp
    have hupd : u.path.data = '/' :: g.path.data := by
      obtain ⟨pt, hpt⟩ := chPre_single_iff.mp hpstart
      have hgp : g.path.data = pt := by
        rw [hgpath]
        unfold strDrop1
        rw [string_data_mk, hpt]
        rfl
      rw [hpt, hgp]
    have hsplitG : rsplitTerm g.path = sp0 :: spRest := by
      rw [hgpath, ← urlpathOf_ssh]
      exact hsplit
    have hgpne : g.path ≠ "" := by
      intro he
      rw [he, rsplitTerm_empty] at hsplitG
      cases hsplitG
    have hgpdne : g.path.data ≠ [] := fun hd =>
      hgpne ((string_eta g.path).symm.trans (congrArg String.mk hd))
    have hupath : displayPathPart g = u.path.data := by
      unfold displayPathPart
      simp [hgsch, hps, hupd]
    have hstreq : Scheme.str g.scheme = u.scheme := by
      rw [hgsch, htokeq]
    have hpsne2 : chSuf ['/'] u.path.data = false := by
      have h2 := hslash
      unfold strEnds at h2
      rw [string_data_slash] at h2
      rw [hupd, show ('/' :: g.path.data) = ['/'] ++ g.path.data from rfl,
        chSuf_append_right hgpdne]
      exact h2
    have hgate : u.scheme = "ssh" ∨ 2 ≤ (sp0 :: spRest).length := Or.inl htokeq
    obtain ⟨g₂, hok2, h1, h2, h3, h4, h5⟩ := reparse_core_auth url g u .ssh
      sp0 spRest owner org fullname hostStr hnorm hscheme hsplit hmeta hg hhost
      hpfx hlike2 hfileNe hlowtok (by decide) hstreq hupath hpsne2 hgate
    exact ⟨g₂, hok2, h1.trans hgsch.symm, h2.trans (hghost.trans hhost).symm,
      h3.trans hgowner.symm, h4.trans hgorg.symm, h5.trans hgname.symm⟩
  · have hse : scheme = Scheme.ssh := hgsch ▸ hssh
    subst hse
    obtain ⟨hostStr, hhost⟩ : ∃ hs, u.host = some hs := by
      rcases extractMeta_inr hmeta with ⟨hf, -⟩ | ⟨hs, -, hh, -⟩ | ⟨hs, -, hh, -⟩
      · exact absurd hf (by decide)
      · exact ⟨hs, hh⟩
      · exact ⟨hs, hh⟩
    have hghost : g.host = u.host := by
      rw [hg]
      rfl
    obtain ⟨hlike2, hnotok, hnsp⟩ := hhostc hostStr (hghost.trans hhost)
    have hpsne2 : chSuf ['/'] g.path.data = false := by
      have h2 := hslash
      unfold strEnds at h2
      rw [string_data_slash] at h2
      exact h2
    have hgpath : g.path = strDrop1 u.path := by
      rw [hg, assemble_path_nonfile url u .ssh owner org (trimEndGit sp0)
        fullname (by decide), urlpathOf_ssh]
    have hlenG : 2 ≤ (sp0 :: spRest).length := by
      have hsg : rsplitTerm g.path = sp0 :: spRest := by
        rw [hgpath, ← urlpathOf_ssh]
        exact hsplit
      rw [hsg] at hlen
      exact hlen
    obtain ⟨g₂, hok2, h1, h2, h3, h4, h5⟩ := reparse_core_opaque url g u sp0
      spRest owner org fullname hostStr hnorm hscheme hsplit hmeta hg hhost hpfx
      hpn hlike2 hnotok hnsp hcol hnos hlenG hpsne2
    exact ⟨g₂, hok2, h1.trans hgsch.symm, h2.trans (hghost.trans hhost).symm,
      h3.trans hgowner.symm, h4.trans hgorg.symm, h5.trans hgname.symm⟩

/-- C6 (amended, witness): the README HTTPS example re-parses after
credential trimming with scheme, host, owner, organization and name
preserved. -/
theorem trim_auth_reparse_amended_witness :
    GitUrl.parse "https://github.com/tjtelan/git-url-parse-rs" =
      .ok ⟨some "github.com", "git-url-parse-rs", some "tjtelan", none,
        "tjtelan/git-url-parse-rs", .https, none, none, none,
        "/tjtelan/git-url-parse-rs", false, true⟩ ∧
    ∃ g₂, GitUrl.parse (GitUrl.display (GitUrl.trim_auth
        ⟨some "github.com", "git-url-parse-rs", some "tjtelan", none,
          "tjtelan/git-url-parse-rs", .https, none, none, none,
          "/tjtelan/git-url-parse-rs", false, true⟩)) = .ok g₂ ∧
      g₂.scheme = Scheme.https ∧ g₂.host = some "github.com" ∧
      g₂.owner = some "tjtelan" ∧ g₂.organization = none ∧
      g₂.name = "git-url-parse-rs" :=
  ⟨by decide,
    trim_auth_reparse_amended "https://github.com/tjtelan/git-url-parse-rs" _
      (by decide) (by decide) (Or.inl ⟨by decide, by decide, by decide⟩)⟩

/-- C6 (counterexample): `ssh://host/a/b` parses successfully, but the
serializer renders the credential-trimmed result as `ssh://host:a/b`
(the `Ssh` path is prefixed with `:` when no port is present), which fails
to re-parse (`a` is not a valid port). -/
theorem trim_auth_reparse_counterexample :
    GitUrl.parse "ssh://host/a/b" =
      .ok ⟨some "host", "b", some "a", none, "a/b", .ssh, none, none, none,
        "a/b", false, true⟩ ∧
    GitUrl.display
        (GitUrl.trim_auth ⟨some "host", "b", some "a", none, "a/b", .ssh,
          none, none, none, "a/b", false, true⟩) = "ssh://host:a/b" ∧
    GitUrl.parse "ssh://host:a/b" =
      .err (.normalizeUrl (.urlParse .invalidPort)) := by
  refine ⟨by decide, by decide, by decide⟩

end ParseGitUrl
